import Mathlib

/-!
Verification of the A-star weapon-target assignment engine (AStarJFA.py)
and the batch dataset tooling (JFA/dataset_generator.py).

The Python source is shallowly embedded: feature matrices become lists of
structures over the rationals, the mutable search loop becomes a step
function on an explicit search state, and the file written by the batch
tooling becomes an explicit list of rows.  The external state-transition
function (SampleSimulator.update_state, not part of this repository's
sources) is modelled from the specification, as noted on its definition.
-/

set_option maxHeartbeats 1000000

namespace JFA

/-- Target feature row: the value (reward potential) and the selected
fraction of the target, as read by the search from state[Targets]. -/
structure Target where
  value : ℚ
  selected : ℚ
deriving DecidableEq

/-- Opportunity feature row for one (effector, target) pair: the
selectable flag and the success probability. -/
structure Opp where
  selectable : Bool
  psuccess : ℚ
deriving DecidableEq

/-- State triple carried by every search node: the Effectors, Targets and
Opportunities feature matrices.  Effector features are opaque to the
search; they take part only in state equality. -/
structure JState where
  Effectors : List (List ℚ)
  Targets : List Target
  Opportunities : List (List Opp)
deriving DecidableEq

/-- Opportunity entry at effector e, target t (defaulting outside the
matrix to a non-selectable entry, which np.where never produces). -/
def JState.opp (s : JState) (e t : ℕ) : Opp :=
  (s.Opportunities.getD e []).getD t ⟨false, 0⟩

/-- Enumeration of all currently selectable (effector, target) pairs in
row-major order, as produced by np.where over
state[Opportunities][:, :, SELECTABLE]. -/
def selectablePairs (s : JState) : List (ℕ × ℕ) :=
  s.Opportunities.enum.flatMap fun er =>
    er.2.enum.filterMap fun tc =>
      if tc.2.selectable then some (er.1, tc.1) else none

/-- Sum of the VALUE feature over all targets,
sum(state[Targets][:, VALUE]). -/
def sumValues (s : JState) : ℚ :=
  (s.Targets.map Target.value).sum

/-- Modelled from the spec: the state-transition function
env.update_state of the external SampleSimulator collaborator, which is
not among this repository's sources.  Per the spec, applying action
(e, t) claims reward value*psuccess from target t (the diminishing
returns model), increments the target's selected fraction by 0.5,
and opportunities stop being selectable once the effector or the target
side of the pairing is exhausted: the used pairing itself is consumed and
a fully selected target's whole column is consumed.  The returned
terminal flag records whether the new state has no selectable
opportunity left. -/
def update_state (a : ℕ × ℕ) (s : JState) : JState × ℚ × Bool :=
  let tgt := s.Targets.getD a.2 ⟨0, 0⟩
  let p := (s.opp a.1 a.2).psuccess
  let reward := tgt.value * p
  let newSel := tgt.selected + 1/2
  let targets' := s.Targets.set a.2 ⟨tgt.value - reward, newSel⟩
  let opps' := s.Opportunities.mapIdx fun e' row =>
    row.mapIdx fun t' o =>
      if t' = a.2 ∧ (1 ≤ newSel ∨ e' = a.1) then ⟨false, o.psuccess⟩ else o
  let s' : JState := ⟨s.Effectors, targets', opps'⟩
  (s', reward, decide (selectablePairs s' = []))

/-- Truncation toward zero, the semantics of the Python int() call in
astar_heuristic. -/
def pyInt (q : ℚ) : ℤ :=
  if 0 ≤ q then ⌊q⌋ else ⌈q⌉

/-- Reward accumulated by the inner loop of astar_heuristic: k successive
hypothetical engagements with success probability p against a target of
running value v; each step claims v*p and removes it from v. -/
def simulateMoves (p : ℚ) : ℕ → ℚ → ℚ
  | 0, _ => 0
  | k + 1, v => v * p + simulateMoves p k (v - v * p)

/-- Count of selectable opportunities against target column i,
sum(state[Opportunities][:, i, SELECTABLE]). -/
def countSelectableCol (s : JState) (i : ℕ) : ℕ :=
  (s.Opportunities.map fun row => if (row.getD i ⟨false, 0⟩).selectable then 1 else 0).sum

/-- Success-probability column of target i over all effectors,
state[Opportunities][:, i, PSUCCESS]. -/
def psuccessCol (s : JState) (i : ℕ) : List ℚ :=
  s.Opportunities.map fun row => (row.getD i ⟨false, 0⟩).psuccess

/-- Index of the leftmost maximal entry of a rational list.  This is the
executable stand-in for np.argpartition(col, -1)[-1:], whose contract
only promises some index of a maximal entry. -/
def argmaxIdx : List ℚ → ℕ
  | [] => 0
  | x :: xs =>
    let j := argmaxIdx xs
    if xs.getD j x ≤ x then 0 else j + 1

/-- Contract of np.argpartition(col, -1)[-1:]: on a nonempty column the
returned index is in range and carries a maximal entry.  The tie-break
between equal maximal entries is implementation defined, so the search
development is parameterized over any pick satisfying this contract. -/
def ValidPick (pick : List ℚ → ℕ) : Prop :=
  ∀ l : List ℚ, l ≠ [] → pick l < l.length ∧ ∀ v ∈ l, v ≤ l.getD (pick l) 0

/-- Per-target contribution of astar_heuristic for target index i with
feature row tgt: skip fully selected targets, clamp the remaining move
count by target slots and selectable opportunities, then simulate the
remaining moves against the picked best opportunity. -/
def targetContribution (pick : List ℚ → ℕ) (s : JState) (i : ℕ) (tgt : Target) : ℚ :=
  if tgt.selected = 1 then 0
  else
    let cnt : ℚ := 2 * countSelectableCol s i
    let rm : ℤ := pyInt (min ((1 - tgt.selected) * 2) cnt)
    if rm = 0 then 0
    else
      let col := psuccessCol s i
      simulateMoves (col.getD (pick col) 0) rm.toNat tgt.value

/-- Heuristic of AStarJFA.astar_heuristic, parameterized by the
argpartition tie-break pick. -/
def astar_heuristicWith (pick : List ℚ → ℕ) (s : JState) : ℚ :=
  (s.Targets.enum.map fun it => targetContribution pick s it.1 it.2).sum

/-- Source function astar_heuristic, with the leftmost-maximum refinement
of the argpartition contract as the concrete tie-break. -/
def astar_heuristic (s : JState) : ℚ :=
  astar_heuristicWith argmaxIdx s

/-- Source function ucs_heuristic: the all-zero heuristic. -/
def ucs_heuristic (_s : JState) : ℚ :=
  0

/-- Mutable fields of the source Node class: priority g, producing
action, state snapshot, one-step reward, terminal flag. -/
structure NodeCore where
  g : ℚ
  action : Option (ℕ × ℕ)
  state : JState
  reward : ℚ
  terminal : Bool
deriving DecidableEq

/-- Search node: the root carries no parent attribute; every child holds
a non-owning snapshot of its parent at expansion time (the parent's
priority is never mutated after its children are created, so the
snapshot is faithful to the Python back-reference). -/
inductive SNode where
  | root (core : NodeCore)
  | child (core : NodeCore) (parent : SNode)
deriving DecidableEq

/-- Core record of a node. -/
def SNode.core : SNode → NodeCore
  | .root c => c
  | .child c _ => c

/-- Priority value g of a node. -/
def SNode.g (n : SNode) : ℚ := n.core.g

/-- State snapshot of a node. -/
def SNode.state (n : SNode) : JState := n.core.state

/-- Whether a node is the parentless root. -/
def SNode.isRoot : SNode → Bool
  | .root _ => true
  | .child _ _ => false

/-- Source method Node.Solution: comma-joined actions from the root to
this node, embedded as the list of actions in root-to-node order. -/
def SNode.solution : SNode → List (ℕ × ℕ)
  | .root c => match c.action with
    | none => []
    | some a => [a]
  | .child c p => match c.action with
    | none => []
    | some a => p.solution ++ [a]

/-- Sum of the one-step rewards along the chain from the root to this
node. -/
def SNode.pathReward : SNode → ℚ
  | .root c => c.reward
  | .child c p => p.pathReward + c.reward

/-- Source method Node.eq as used by the in-list membership tests: two
nodes are equal exactly when all three feature matrices of their states
are element-wise equal, irrespective of path, priority or flags. -/
def stateEq (s t : JState) : Bool :=
  decide (s.Effectors = t.Effectors) && decide (s.Targets = t.Targets)
    && decide (s.Opportunities = t.Opportunities)

/-- Membership of a state among the states of a node list, the meaning
of the Python expressions node in explored and child in frontier. -/
def stateMem (s : JState) (l : List SNode) : Bool :=
  l.any fun m => stateEq s m.state

/-- Pop of the lowest-priority node: the leftmost node of minimal g and
the remaining frontier in order.  This refines heapq.heappop, which
returns some minimal node under the Node.lt order on g alone and leaves
the tie order between equal priorities implementation defined. -/
def popMin : List SNode → Option (SNode × List SNode)
  | [] => none
  | n :: rest =>
    match popMin rest with
    | none => some (n, [])
    | some (m, rest') => if n.g ≤ m.g then some (n, rest) else some (m, n :: rest')

/-- Search-loop state: the open frontier, the closed explored list and
the three statistics counters of AStar. -/
structure Sσ where
  frontier : List SNode
  explored : List SNode
  expansions : ℕ
  branchFactor : ℕ
  duplicates : ℕ
deriving DecidableEq

/-- Result of AStar: an accepted solution tuple, or the failure sentinel
returned as (failed, None, expansions, branchFactor), which carries no
action sequence and no priority value. -/
inductive AResult where
  | success (solution : List (ℕ × ℕ)) (g : ℚ) (expansions branchFactor : ℕ)
  | failure (expansions branchFactor : ℕ)
deriving DecidableEq

/-- One loop iteration either returns from AStar or continues with an
updated search state. -/
inductive StepRes where
  | done (r : AResult)
  | cont (σ : Sσ)
deriving DecidableEq

/-- Child construction during expansion: apply the transition to the
parent state, set g to parent.g - reward - heuristic(newState), and link
the parent. -/
def childNode (h : JState → ℚ) (parent : SNode) (a : ℕ × ℕ) : SNode :=
  let r := update_state a parent.state
  .child ⟨parent.g - r.2.1 - h r.1, some a, r.1, r.2.1, r.2.2⟩ parent

/-- Per-child frontier insertion decision of the expansion loop: push
the child and count it in the branch factor exactly when no node of
value-equal state is in the explored list or the current frontier;
otherwise drop it and count a duplicate. -/
def pushChild (explored : List SNode) (acc : List SNode × ℕ × ℕ) (c : SNode) :
    List SNode × ℕ × ℕ :=
  if stateMem c.state explored = false ∧ stateMem c.state acc.1 = false then
    (acc.1 ++ [c], acc.2.1 + 1, acc.2.2)
  else
    (acc.1, acc.2.1, acc.2.2 + 1)

/-- Expansion of a (corrected) node: append it to the explored list,
then generate a child for every selectable pair of its state in
np.where order, threading the frontier and the counters through the
duplicate filter. -/
def expandNode (h : JState → ℚ) (σ : Sσ) (node : SNode) (rest : List SNode) : StepRes :=
  let explored := σ.explored ++ [node]
  let res := (selectablePairs node.state).foldl
    (fun acc a => pushChild explored acc (childNode h node a))
    (rest, σ.branchFactor, σ.duplicates)
  .cont ⟨res.1, explored, σ.expansions + 1, res.2.1, res.2.2⟩

/-- Handling of a freshly popped (non-stale) node: a terminal child is
accepted when its stored priority matches parent.g - reward and
otherwise re-queued with the corrected priority; a non-terminal child
has its priority corrected and is expanded; the root is expanded as
popped. -/
def stepFresh (h : JState → ℚ) (σ : Sσ) (node : SNode) (rest : List SNode) : StepRes :=
  match node with
  | .child c p =>
    if c.terminal then
      if c.g = p.g - c.reward then
        .done (.success (SNode.child c p).solution c.g (σ.expansions + 1) σ.branchFactor)
      else
        .cont ⟨rest ++ [.child ⟨p.g - c.reward, c.action, c.state, c.reward, c.terminal⟩ p],
          σ.explored, σ.expansions + 1, σ.branchFactor, σ.duplicates⟩
    else
      expandNode h σ (.child ⟨p.g - c.reward, c.action, c.state, c.reward, c.terminal⟩ p) rest
  | .root c => expandNode h σ (.root c) rest

/-- One iteration of the while-frontier loop of AStar: an empty frontier
returns the failure sentinel; a popped node whose state is already in
the explored list is dropped as a stale duplicate; any other popped node
is processed by stepFresh. -/
def step (h : JState → ℚ) (σ : Sσ) : StepRes :=
  match popMin σ.frontier with
  | none => .done (.failure σ.expansions σ.branchFactor)
  | some (node, rest) =>
    if stateMem node.state σ.explored then .cont ⟨rest, σ.explored, σ.expansions,
      σ.branchFactor, σ.duplicates⟩
    else stepFresh h σ node rest

/-- Fuel-indexed iteration of the loop; none means the fuel ran out
before the loop returned. -/
def runAStar (h : JState → ℚ) : ℕ → Sσ → Option AResult
  | 0, _ => none
  | fuel + 1, σ =>
    match step h σ with
    | .done r => some r
    | .cont σ' => runAStar h fuel σ'

/-- Initial node of AStar: priority is the total target value, action
None, reward 0, terminal False, no parent attribute. -/
def initNode (s : JState) : SNode :=
  .root ⟨sumValues s, none, s, 0, false⟩

/-- Source function AStar: run the loop from a frontier holding only the
initial node and zeroed statistics. -/
def AStar (h : JState → ℚ) (fuel : ℕ) (s : JState) : Option AResult :=
  runAStar h fuel ⟨[initNode s], [], 0, 0, 0⟩

end JFA

namespace JFA

/-- Example instance from the spec: one effector, one target of value 10,
one selectable opportunity with success probability 0.9. -/
def ex1 : JState :=
  ⟨[[1]], [⟨10, 0⟩], [[⟨true, 9/10⟩]]⟩

/-- Example instance with no selectable opportunity in the initial
state. -/
def ex3 : JState :=
  ⟨[[1]], [⟨5, 0⟩], [[⟨false, 1/2⟩]]⟩

/-- Example instance from the spec: two effectors, two targets of values
10 and 20, one selectable opportunity per target with success
probabilities 0.8 and 0.5 on disjoint pairs. -/
def ex2 : JState :=
  ⟨[[1], [2]], [⟨10, 0⟩, ⟨20, 0⟩], [[⟨true, 8/10⟩, ⟨false, 0⟩], [⟨false, 0⟩, ⟨true, 5/10⟩]]⟩

end JFA

namespace JFA

/-- Shape predicate of the outcome the no-opportunity claim predicts: an
accepted empty action sequence whose priority is the given total. -/
def claimsEmptySuccess (r : Option AResult) (total : ℚ) : Bool :=
  match r with
  | some (.success [] g _ _) => decide (g = total)
  | _ => false

/-- C8: on an exhausted frontier the loop returns the failure sentinel,
which carries no action sequence and no priority value but does carry
the accumulated expansion count and branch factor. -/
theorem step_frontier_exhausted (h : JState → ℚ) (σ : Sσ) (hf : σ.frontier = []) :
    step h σ = .done (.failure σ.expansions σ.branchFactor) := by
  simp [step, hf, popMin]

/-- Witness for step_frontier_exhausted at a concrete search state. -/
theorem step_frontier_exhausted_w :
    step astar_heuristic ⟨[], [initNode ex1], 7, 2, 1⟩ = .done (.failure 7 2) :=
  step_frontier_exhausted astar_heuristic ⟨[], [initNode ex1], 7, 2, 1⟩ rfl

/-- C2: a freshly popped node with a parent and a true terminal flag is
accepted exactly when its stored priority equals parent.g - reward, in
which case the loop returns the reconstructed action sequence together
with (priority, expansions, branchFactor); otherwise its priority is
overwritten with the recomputed value and the node is pushed back onto
the frontier. -/
theorem step_terminal_revalidation (h : JState → ℚ) (σ : Sσ) (n : SNode)
    (rest : List SNode) (c : NodeCore) (p : SNode)
    (hpop : popMin σ.frontier = some (n, rest))
    (hstale : stateMem n.state σ.explored = false)
    (hn : n = .child c p) (hterm : c.terminal = true) :
    (c.g = p.g - c.reward →
      step h σ = .done (.success (SNode.child c p).solution c.g (σ.expansions + 1)
        σ.branchFactor)) ∧
    (c.g ≠ p.g - c.reward →
      step h σ = .cont ⟨rest ++ [.child ⟨p.g - c.reward, c.action, c.state, c.reward,
        c.terminal⟩ p], σ.explored, σ.expansions + 1, σ.branchFactor, σ.duplicates⟩) := by
  subst hn
  constructor
  · intro hg
    simp [step, hpop, hstale, stepFresh, hterm, hg]
  · intro hg
    simp [step, hpop, hstale, stepFresh, hterm, hg]

/-- Witness for step_terminal_revalidation: accepting a concrete
terminal node whose priority check passes. -/
theorem step_terminal_revalidation_w :
    step astar_heuristic ⟨[SNode.child ⟨1, some (0, 0), (update_state (0, 0) ex1).1, 9, true⟩
      (initNode ex1)], [], 1, 1, 0⟩ =
      .done (.success [(0, 0)] 1 2 1) :=
  (step_terminal_revalidation astar_heuristic
    ⟨[SNode.child ⟨1, some (0, 0), (update_state (0, 0) ex1).1, 9, true⟩ (initNode ex1)], [], 1, 1, 0⟩
    (SNode.child ⟨1, some (0, 0), (update_state (0, 0) ex1).1, 9, true⟩ (initNode ex1)) []
    ⟨1, some (0, 0), (update_state (0, 0) ex1).1, 9, true⟩ (initNode ex1)
    rfl rfl rfl rfl).1 (by norm_num [initNode, SNode.g, SNode.core, sumValues, ex1])

/-- C6: the duplicate filter of the expansion loop.  Node equality holds
exactly when the Effectors, Targets and Opportunities matrices are
element-wise equal (hence independent of the producing path); membership
tests compare only states; and a generated child is pushed onto the
frontier and counted in the branch factor when no state-equal node is in
the closed list or the current frontier, and is otherwise dropped and
counted as a duplicate. -/
theorem expansion_duplicate_filter :
    (∀ s t : JState, stateEq s t = true ↔
      s.Effectors = t.Effectors ∧ s.Targets = t.Targets ∧
        s.Opportunities = t.Opportunities) ∧
    (∀ (s : JState) (l : List SNode), stateMem s l = true ↔
      ∃ m ∈ l, stateEq s m.state = true) ∧
    (∀ (explored : List SNode) (acc : List SNode × ℕ × ℕ) (c : SNode),
      (stateMem c.state explored = false ∧ stateMem c.state acc.1 = false →
        pushChild explored acc c = (acc.1 ++ [c], acc.2.1 + 1, acc.2.2)) ∧
      (¬(stateMem c.state explored = false ∧ stateMem c.state acc.1 = false) →
        pushChild explored acc c = (acc.1, acc.2.1, acc.2.2 + 1))) := by
  refine ⟨?_, ?_, ?_⟩
  · intro s t
    simp [stateEq, and_assoc]
  · intro s l
    simp [stateMem, List.any_eq_true]
  · intro explored acc c
    constructor
    · intro hc
      simp [pushChild, hc]
    · intro hc
      simp only [pushChild, if_neg hc]

/-- Witness for expansion_duplicate_filter: pushing a concrete fresh
child and the state-equality test at concrete states. -/
theorem expansion_duplicate_filter_w :
    pushChild [] ([], 0, 0) (initNode ex1) = ([initNode ex1], 1, 0) ∧
    stateEq ex1 ex1 = true :=
  ⟨(expansion_duplicate_filter.2.2 [] ([], 0, 0) (initNode ex1)).1 (by constructor <;> rfl),
    (expansion_duplicate_filter.1 ex1 ex1).2 ⟨rfl, rfl, rfl⟩⟩

end JFA

namespace JFA

/-- C10: closed-set discipline of the loop.  In any continuing step,
every node newly inserted into the closed list is either the parentless
root or carried a false terminal flag; a freshly popped terminal child
is never inserted: it is either accepted (the loop returns with no
insertion) or re-queued with the corrected priority, staying eligible
for later pops; and every non-stale pop increments the expansions
counter, including repeated re-validation pops and the accepting pop. -/
theorem step_closed_set_discipline (h : JState → ℚ) (σ : Sσ) :
    (∀ σ', step h σ = .cont σ' → ∀ n ∈ σ'.explored,
      n ∈ σ.explored ∨ n.isRoot = true ∨ n.core.terminal = false) ∧
    (∀ (n : SNode) (rest : List SNode) (c : NodeCore) (p : SNode),
      popMin σ.frontier = some (n, rest) → stateMem n.state σ.explored = false →
      n = .child c p → c.terminal = true →
      (c.g = p.g - c.reward ∧ step h σ = .done (.success (SNode.child c p).solution c.g
          (σ.expansions + 1) σ.branchFactor)) ∨
      (c.g ≠ p.g - c.reward ∧
        step h σ = .cont ⟨rest ++ [.child ⟨p.g - c.reward, c.action, c.state, c.reward,
          c.terminal⟩ p], σ.explored, σ.expansions + 1, σ.branchFactor, σ.duplicates⟩)) ∧
    (∀ (n : SNode) (rest : List SNode),
      popMin σ.frontier = some (n, rest) → stateMem n.state σ.explored = false →
      (∀ σ', step h σ = .cont σ' → σ'.expansions = σ.expansions + 1) ∧
      (∀ sol g e b, step h σ = .done (.success sol g e b) → e = σ.expansions + 1)) := by
  refine ⟨?_, ?_, ?_⟩
  · intro σ' hstep n hn
    unfold step at hstep
    rcases hpop : popMin σ.frontier with _ | ⟨m, rest⟩ <;> rw [hpop] at hstep
    · simp at hstep
    · by_cases hstale : stateMem m.state σ.explored
      · simp [hstale] at hstep
        rw [← hstep] at hn
        exact Or.inl hn
      · simp [hstale] at hstep
        match m with
        | .root c =>
          simp [stepFresh, expandNode] at hstep
          rw [← hstep] at hn
          simp at hn
          rcases hn with hn | hn
          · exact Or.inl hn
          · subst hn
            exact Or.inr (Or.inl rfl)
        | .child c p =>
          by_cases hterm : c.terminal
          · simp [stepFresh, hterm] at hstep
            split at hstep
            · simp at hstep
            · simp at hstep
              rw [← hstep] at hn
              exact Or.inl hn
          · simp [stepFresh, hterm, expandNode] at hstep
            rw [← hstep] at hn
            simp at hn
            rcases hn with hn | hn
            · exact Or.inl hn
            · subst hn
              refine Or.inr (Or.inr ?_)
              simp [SNode.core]
  · intro n rest c p hpop hstale hn hterm
    subst hn
    by_cases hg : c.g = p.g - c.reward
    · exact Or.inl ⟨hg, by simp [step, hpop, hstale, stepFresh, hterm, hg]⟩
    · exact Or.inr ⟨hg, by simp [step, hpop, hstale, stepFresh, hterm, hg]⟩
  · intro n rest hpop hstale
    constructor
    · intro σ' hstep
      unfold step at hstep
      rw [hpop] at hstep
      simp [hstale] at hstep
      match n with
      | .root c =>
        simp [stepFresh, expandNode] at hstep
        rw [← hstep]
      | .child c p =>
        by_cases hterm : c.terminal
        · simp [stepFresh, hterm] at hstep
          split at hstep
          · simp at hstep
          · simp at hstep
            rw [← hstep]
        · simp [stepFresh, hterm, expandNode] at hstep
          rw [← hstep]
    · intro sol g e b hstep
      unfold step at hstep
      rw [hpop] at hstep
      simp [hstale] at hstep
      match n with
      | .root c =>
        simp [stepFresh, expandNode] at hstep
      | .child c p =>
        by_cases hterm : c.terminal
        · simp [stepFresh, hterm] at hstep
          split at hstep
          · simp at hstep
            exact hstep.2.2.1.symm
          · simp at hstep
        · simp [stepFresh, hterm, expandNode] at hstep

/-- Witness for step_closed_set_discipline: the accepting pop of a
concrete terminal node increments the expansions counter. -/
theorem step_closed_set_discipline_w :
    2 = 1 + 1 :=
  ((step_closed_set_discipline astar_heuristic
    ⟨[SNode.child ⟨1, some (0, 0), (update_state (0, 0) ex1).1, 9, true⟩ (initNode ex1)], [], 1, 1, 0⟩).2.2
    (SNode.child ⟨1, some (0, 0), (update_state (0, 0) ex1).1, 9, true⟩ (initNode ex1)) []
    rfl rfl).2 [(0, 0)] 1 2 1 step_terminal_revalidation_w

end JFA

namespace JFA

/-- Counterexample for the no-opportunity claim: on a concrete initial
state with no selectable opportunity, AStar does not return an empty
action sequence with priority equal to the total initial value; it
returns the failure sentinel (failed, None, 1, 0). -/
theorem astar_no_opportunity_cex :
    AStar astar_heuristic 5 ex3 = some (.failure 1 0) ∧
      claimsEmptySuccess (AStar astar_heuristic 5 ex3) (sumValues ex3) = false := by
  constructor <;> rfl

/-- C3 (amended): on an initial state with no selectable opportunity,
the loop pops and expands only the initial node and then reports search
failure: for any heuristic and any fuel of at least two iterations the
result is the failure sentinel with expansion count 1 and branch factor
0, not an accepted empty action sequence. -/
theorem astar_no_opportunity (h : JState → ℚ) (s : JState)
    (hsel : selectablePairs s = []) (fuel : ℕ) (hfuel : 2 ≤ fuel) :
    AStar h fuel s = some (.failure 1 0) := by
  obtain ⟨k, rfl⟩ : ∃ k, fuel = k + 2 := ⟨fuel - 2, by omega⟩
  show runAStar h (k + 2) ⟨[initNode s], [], 0, 0, 0⟩ = some (.failure 1 0)
  have h1 : step h ⟨[initNode s], [], 0, 0, 0⟩ =
      .cont ⟨[], [initNode s], 1, 0, 0⟩ := by
    simp [step, popMin, stateMem, stepFresh, initNode, expandNode, SNode.state, SNode.core, hsel]
  have h2 : step h ⟨[], [initNode s], 1, 0, 0⟩ = .done (.failure 1 0) := by
    simp [step, popMin]
  simp [runAStar, h1, h2]

/-- Witness for astar_no_opportunity at the concrete no-opportunity
instance. -/
theorem astar_no_opportunity_w :
    AStar astar_heuristic 5 ex3 = some (.failure 1 0) :=
  astar_no_opportunity astar_heuristic ex3 rfl 5 (by norm_num)

end JFA

namespace JFA

/-- Well-formed state of the data model: a rectangular opportunity
matrix, nonnegative target values, selected fractions in half units,
success probabilities in the unit interval, and no selectable
opportunity against a fully selected target. -/
def WFState (s : JState) : Prop :=
  (∀ row ∈ s.Opportunities, row.length = s.Targets.length) ∧
    (∀ t ∈ s.Targets, 0 ≤ t.value ∧ (t.selected = 0 ∨ t.selected = 1/2 ∨ t.selected = 1)) ∧
    (∀ row ∈ s.Opportunities, ∀ o ∈ row, 0 ≤ o.psuccess ∧ o.psuccess ≤ 1) ∧
    (∀ row ∈ s.Opportunities, ∀ it ∈ row.enum, it.2.selectable = true →
      (s.Targets.getD it.1 ⟨0, 0⟩).selected ≠ 1)

instance (s : JState) : Decidable (WFState s) := by
  unfold WFState
  infer_instance

/-- Entry read by getD at an in-range index is a member of the list. -/
theorem getD_mem_of_lt (l : List ℚ) (n : ℕ) (h : n < l.length) : l.getD n 0 ∈ l := by
  rw [List.getD_eq_getElem l 0 h]
  exact List.getElem_mem h

/-- Second components of enum entries are members of the list. -/
theorem snd_mem_of_mem_enum {α : Type} {l : List α} {it : ℕ × α} (h : it ∈ l.enum) :
    it.2 ∈ l := by
  have h2 := List.mem_map_of_mem Prod.snd h
  rwa [List.enum_map_snd] at h2

/-- Truncation of a nonpositive rational is nonpositive. -/
theorem pyInt_nonpos {q : ℚ} (h : q ≤ 0) : pyInt q ≤ 0 := by
  unfold pyInt
  split
  · have h2 : ⌊q⌋ ≤ ⌊(0 : ℚ)⌋ := Int.floor_le_floor h
    simpa using h2
  · have h2 : ⌈q⌉ ≤ ⌈(0 : ℚ)⌉ := Int.ceil_le_ceil h
    simpa using h2

/-- Positive truncation forces the rational to be at least one. -/
theorem one_le_of_pyInt_pos {q : ℚ} (h : 0 < pyInt q) : 1 ≤ q := by
  unfold pyInt at h
  split at h
  · exact_mod_cast (Int.le_floor.mp h)
  · rename_i hq
    push_neg at hq
    have h2 : ⌈q⌉ ≤ ⌈(0 : ℚ)⌉ := Int.ceil_le_ceil hq.le
    simp at h2
    omega

/-- Truncation of a natural number cast is that natural number. -/
theorem pyInt_coe (n : ℕ) : pyInt (n : ℚ) = (n : ℤ) := by
  unfold pyInt
  rw [if_pos (by positivity)]
  exact_mod_cast Int.floor_natCast n

/-- Unfolding equation of argmaxIdx on a cons cell. -/
theorem argmaxIdx_cons (x : ℚ) (xs : List ℚ) :
    argmaxIdx (x :: xs) = if xs.getD (argmaxIdx xs) x ≤ x then 0 else argmaxIdx xs + 1 :=
  rfl

/-- Source tie-break stand-in argmaxIdx satisfies the argpartition
contract. -/
theorem argmaxIdx_valid : ValidPick argmaxIdx := by
  intro l hl
  induction l with
  | nil => exact absurd rfl hl
  | cons x xs ih =>
    by_cases hxs : xs = []
    · subst hxs
      refine ⟨by simp [argmaxIdx_cons, argmaxIdx], ?_⟩
      intro v hv
      simp at hv
      simp [argmaxIdx_cons, argmaxIdx, hv]
    · obtain ⟨hlt, hmax⟩ := ih hxs
      have hgdx : xs.getD (argmaxIdx xs) x = xs.getD (argmaxIdx xs) 0 := by
        rw [List.getD_eq_getElem xs x hlt, List.getD_eq_getElem xs 0 hlt]
      by_cases hc : xs.getD (argmaxIdx xs) x ≤ x
      · rw [argmaxIdx_cons, if_pos hc]
        refine ⟨by simp, ?_⟩
        intro v hv
        rw [List.getD_cons_zero]
        rcases List.mem_cons.mp hv with hv | hv
        · exact hv.le
        · exact le_trans (hmax v hv) (hgdx ▸ hc)
      · rw [argmaxIdx_cons, if_neg hc]
        refine ⟨Nat.succ_lt_succ hlt, ?_⟩
        intro v hv
        rw [List.getD_cons_succ]
        rcases List.mem_cons.mp hv with hv | hv
        · subst hv
          exact hgdx ▸ (lt_of_not_le hc).le
        · exact hmax v hv

/-- Rightmost-maximum index: a second refinement of the argpartition
contract, preferring the highest effector index among ties. -/
def argmaxIdxR : List ℚ → ℕ
  | [] => 0
  | [_] => 0
  | x :: y :: ys =>
    let j := argmaxIdxR (y :: ys)
    if x ≤ (y :: ys).getD j x then j + 1 else 0

/-- Unfolding equation of argmaxIdxR on a two-element-or-more list. -/
theorem argmaxIdxR_cons (x y : ℚ) (ys : List ℚ) :
    argmaxIdxR (x :: y :: ys) =
      if x ≤ (y :: ys).getD (argmaxIdxR (y :: ys)) x then argmaxIdxR (y :: ys) + 1 else 0 :=
  rfl

/-- Rightmost tie-break also satisfies the argpartition contract. -/
theorem argmaxIdxR_valid : ValidPick argmaxIdxR := by
  intro l hl
  induction l with
  | nil => exact absurd rfl hl
  | cons x xs ih =>
    by_cases hxs : xs = []
    · subst hxs
      refine ⟨by simp [argmaxIdxR], ?_⟩
      intro v hv
      simp at hv
      simp [argmaxIdxR, hv]
    · obtain ⟨hlt, hmax⟩ := ih hxs
      obtain ⟨y, ys, rfl⟩ := List.exists_cons_of_ne_nil hxs
      have hgdx : (y :: ys).getD (argmaxIdxR (y :: ys)) x =
          (y :: ys).getD (argmaxIdxR (y :: ys)) 0 := by
        rw [List.getD_eq_getElem _ x hlt, List.getD_eq_getElem _ 0 hlt]
      by_cases hc : x ≤ (y :: ys).getD (argmaxIdxR (y :: ys)) x
      · rw [argmaxIdxR_cons, if_pos hc]
        refine ⟨Nat.succ_lt_succ hlt, ?_⟩
        intro v hv
        rw [List.getD_cons_succ]
        rcases List.mem_cons.mp hv with hv | hv
        · subst hv
          exact hgdx ▸ hc
        · exact hmax v hv
      · rw [argmaxIdxR_cons, if_neg hc]
        refine ⟨by simp, ?_⟩
        intro v hv
        rw [List.getD_cons_zero]
        rcases List.mem_cons.mp hv with hv | hv
        · exact hv.le
        · exact le_trans (hmax v hv) (le_trans (hgdx ▸ le_refl _) (lt_of_not_le hc).le)

end JFA

namespace JFA

/-- Chosen entries of two contract-conforming picks agree on a nonempty
column: both carry the maximum of the column. -/
theorem pick_value_eq (pick pick' : List ℚ → ℕ) (hp : ValidPick pick)
    (hp' : ValidPick pick') (l : List ℚ) (hl : l ≠ []) :
    l.getD (pick l) 0 = l.getD (pick' l) 0 := by
  obtain ⟨hlt, hmax⟩ := hp l hl
  obtain ⟨hlt', hmax'⟩ := hp' l hl
  exact le_antisymm (hmax' _ (getD_mem_of_lt l _ hlt)) (hmax _ (getD_mem_of_lt l _ hlt'))

/-- Per-target heuristic contribution does not depend on which
contract-conforming tie-break the argpartition call resolves to. -/
theorem targetContribution_pick_eq (pick pick' : List ℚ → ℕ) (hp : ValidPick pick)
    (hp' : ValidPick pick') (s : JState) (i : ℕ) (tgt : Target) :
    targetContribution pick s i tgt = targetContribution pick' s i tgt := by
  unfold targetContribution
  split
  · rfl
  · dsimp only
    split
    · rfl
    · rename_i hsel hrm
      rcases le_or_lt (pyInt (min ((1 - tgt.selected) * 2) (2 * countSelectableCol s i))) 0
        with hle | hpos
      · rw [Int.toNat_of_nonpos hle]
        rfl
      · have h1 : (1 : ℚ) ≤ min ((1 - tgt.selected) * 2) (2 * countSelectableCol s i) :=
          one_le_of_pyInt_pos hpos
        have hcnt : (1 : ℚ) ≤ 2 * countSelectableCol s i := le_trans h1 (min_le_right _ _)
        have hcnt' : 0 < countSelectableCol s i := by
          rcases Nat.eq_zero_or_pos (countSelectableCol s i) with h0 | h0
          · rw [h0] at hcnt
            norm_num at hcnt
          · exact h0
        have hopps : s.Opportunities ≠ [] := by
          intro h0
          unfold countSelectableCol at hcnt'
          rw [h0] at hcnt'
          simp at hcnt'
        have hcol : psuccessCol s i ≠ [] := by
          unfold psuccessCol
          simpa using hopps
        rw [pick_value_eq pick pick' hp hp' _ hcol]

/-- C5 (amended): the opportunity used by astar_heuristic against a
target is one attaining the maximal successProbability of the target's
column (the argpartition contract), but the tie-break between equal
maximal probabilities is implementation defined rather than
lowest-effector-index; the heuristic value is nevertheless identical for
every conforming tie-break, because tied choices carry the same
probability, so the value is deterministic. -/
theorem astar_heuristic_best_pick :
    (∀ pick, ValidPick pick → ∀ l : List ℚ, l ≠ [] →
      l.getD (pick l) 0 ∈ l ∧ ∀ v ∈ l, v ≤ l.getD (pick l) 0) ∧
    (∀ pick pick', ValidPick pick → ValidPick pick' → ∀ s : JState,
      astar_heuristicWith pick s = astar_heuristicWith pick' s) := by
  constructor
  · intro pick hp l hl
    obtain ⟨hlt, hmax⟩ := hp l hl
    exact ⟨getD_mem_of_lt l _ hlt, hmax⟩
  · intro pick pick' hp hp' s
    unfold astar_heuristicWith
    refine congrArg List.sum (List.map_congr_left ?_)
    intro it _
    exact targetContribution_pick_eq pick pick' hp hp' s it.1 it.2

/-- Witness for astar_heuristic_best_pick: equal heuristic values under
the leftmost and rightmost conforming tie-breaks at a concrete state. -/
theorem astar_heuristic_best_pick_w :
    astar_heuristicWith argmaxIdx ex1 = astar_heuristicWith argmaxIdxR ex1 :=
  astar_heuristic_best_pick.2 argmaxIdx argmaxIdxR argmaxIdx_valid argmaxIdxR_valid ex1

/-- Concrete tie state for the best-opportunity selection: two effectors
against one target with equal success probabilities. -/
def cex5 : JState :=
  ⟨[[1], [2]], [⟨10, 0⟩], [[⟨true, 1/2⟩], [⟨true, 1/2⟩]]⟩

/-- Counterexample for the lowest-effector-index tie-break claim: the
argpartition contract that the source delegates to is also satisfied by
the rightmost-maximum tie-break, which on this concrete column of two
equal success probabilities selects effector index 1 even though index 0
attains the same maximal probability; the lowest-index rule is therefore
not a property of the code. -/
theorem astar_best_pick_cex :
    ValidPick argmaxIdxR ∧
    argmaxIdxR (psuccessCol cex5 0) = 1 ∧
    argmaxIdx (psuccessCol cex5 0) = 0 ∧
    (psuccessCol cex5 0).getD 0 0 = (psuccessCol cex5 0).getD 1 0 :=
  ⟨argmaxIdxR_valid, by with_unfolding_all decide, by with_unfolding_all decide,
    by with_unfolding_all decide⟩

end JFA

namespace JFA

/-- Per-target contribution as the specification words it: remaining
slots are the minimum of twice the unselected fraction and twice the
count of currently selectable opportunities against the target, the
target is skipped when that is zero, and otherwise that many successive
engagements are simulated against the picked best opportunity. -/
def specContribution (pick : List ℚ → ℕ) (s : JState) (i : ℕ) (tgt : Target) : ℚ :=
  if tgt.selected = 1 then 0
  else
    let slots : ℕ := min (Int.toNat ⌊(1 - tgt.selected) * 2⌋) (2 * countSelectableCol s i)
    if slots = 0 then 0
    else
      let col := psuccessCol s i
      simulateMoves (col.getD (pick col) 0) slots tgt.value

/-- Heuristic value as the specification words it: the sum of the
per-target contributions. -/
def heuristicSpec (pick : List ℚ → ℕ) (s : JState) : ℚ :=
  (s.Targets.enum.map fun it => specContribution pick s it.1 it.2).sum

/-- Bridge for a target whose unselected slot count is the natural
number k: the source contribution with its int() truncation of a
rational minimum equals the specification contribution with its natural
number minimum. -/
theorem targetContribution_int (pick : List ℚ → ℕ) (s : JState) (i : ℕ) (tgt : Target)
    (k : ℕ) (hk : (1 - tgt.selected) * 2 = (k : ℚ)) (hne : tgt.selected ≠ 1) :
    targetContribution pick s i tgt = specContribution pick s i tgt := by
  unfold targetContribution specContribution
  rw [if_neg hne, if_neg hne]
  dsimp only
  have hc2 : (2 : ℚ) * (countSelectableCol s i : ℚ) = ((2 * countSelectableCol s i : ℕ) : ℚ) := by
    push_cast
    ring
  have hmin : min ((1 - tgt.selected) * 2) (2 * (countSelectableCol s i : ℚ)) =
      ((min k (2 * countSelectableCol s i) : ℕ) : ℚ) := by
    rw [hk, hc2, Nat.cast_min]
  rw [hmin, pyInt_coe]
  have hfl : Int.toNat ⌊(1 - tgt.selected) * 2⌋ = k := by
    rw [hk]
    simp
  rw [hfl]
  by_cases h0 : min k (2 * countSelectableCol s i) = 0
  · rw [if_pos (by exact_mod_cast h0), if_pos h0]
  · rw [if_neg (by exact_mod_cast h0), if_neg h0]
    have h1 : ((min k (2 * countSelectableCol s i) : ℕ) : ℤ).toNat =
        min k (2 * countSelectableCol s i) := Int.toNat_natCast _
    rw [h1]

/-- C4: on well-formed states the heuristic computes exactly the
per-target sum described by the specification: remaining slots are
min(2*(1 - selectedFraction), 2*count of selectable opportunities),
zero-slot targets are skipped, and each remaining slot adds
runningValue*successProbability of the picked best opportunity while
subtracting it from the running value. -/
theorem astar_heuristic_spec (pick : List ℚ → ℕ) (s : JState) (hwf : WFState s) :
    astar_heuristicWith pick s = heuristicSpec pick s := by
  unfold astar_heuristicWith heuristicSpec
  refine congrArg List.sum (List.map_congr_left ?_)
  intro it hit
  have htgt : it.2 ∈ s.Targets := snd_mem_of_mem_enum hit
  obtain ⟨-, hsel⟩ := hwf.2.1 it.2 htgt
  rcases hsel with hsel | hsel | hsel
  · exact targetContribution_int pick s it.1 it.2 2 (by rw [hsel]; norm_num)
      (by rw [hsel]; norm_num)
  · exact targetContribution_int pick s it.1 it.2 1 (by rw [hsel]; norm_num)
      (by rw [hsel]; norm_num)
  · unfold targetContribution specContribution
    rw [if_pos hsel, if_pos hsel]

/-- Witness for astar_heuristic_spec: the source heuristic and the
specification formula agree on the concrete example state. -/
theorem astar_heuristic_spec_w :
    astar_heuristicWith argmaxIdx ex1 = heuristicSpec argmaxIdx ex1 :=
  astar_heuristic_spec argmaxIdx ex1 (by with_unfolding_all decide)

end JFA

namespace JFA

/-- Loop body of solver() in JFA/dataset_generator.py over the listed
problem indices, with the output CSV modelled as the list of rows
appended so far (the header row is the initial content).  The intr
oracle supplies the KeyboardInterrupt schedule: none means problem i
completes and its row is appended; some true means an interrupt hits
while solving problem i and the user presses Enter at the prompt, after
which the for loop moves on to the NEXT index; some false means the user
presses ctrl+c at the prompt, which re-raises out of the handler and
ends the loop.  The returned flag is false when the loop was aborted. -/
def solverLoop {α : Type} (row : ℕ → α) (intr : ℕ → Option Bool) :
    List ℕ → List α → List α × Bool
  | [], file => (file, true)
  | i :: is, file =>
    match intr i with
    | none => solverLoop row intr is (file ++ [row i])
    | some true => solverLoop row intr is file
    | some false => (file, false)

/-- Loop of generate_dataset() in JFA/dataset_generator.py: rows are
accumulated in csv_content in memory and the CSV file is written once
after the loop; an abort inside the loop therefore produces no file at
all, modelled as none. -/
def generateLoop {α : Type} (row : ℕ → α) (intr : ℕ → Option Bool) :
    List ℕ → List α → Option (List α)
  | [], acc => some acc
  | i :: is, acc =>
    match intr i with
    | none => generateLoop row intr is (acc ++ [row i])
    | some true => generateLoop row intr is acc
    | some false => none

/-- Rows already appended by solverLoop are never removed: the resulting
file extends the initial content, whether the loop completes or is
aborted. -/
theorem solverLoop_preserves {α : Type} (row : ℕ → α) (intr : ℕ → Option Bool)
    (indices : List ℕ) (file : List α) :
    ∃ ext, (solverLoop row intr indices file).1 = file ++ ext := by
  induction indices generalizing file with
  | nil => exact ⟨[], by simp [solverLoop]⟩
  | cons i is ih =>
    unfold solverLoop
    match hi : intr i with
    | none =>
      obtain ⟨ext, hext⟩ := ih (file ++ [row i])
      exact ⟨[row i] ++ ext, by simp [hext]⟩
    | some true =>
      obtain ⟨ext, hext⟩ := ih file
      exact ⟨ext, hext⟩
    | some false => exact ⟨[], by simp⟩

/-- Evaluation of the batch tooling at the failing interrupt schedule.
First conjunct: in solver(), an interrupt during problem 0 answered by
pressing Enter does not retry problem 0 - the loop proceeds to problem 1
and the row of problem 0 (value 10) is permanently missing from the
file, contradicting the retry behaviour announced by the prompt; rows
appended for completed problems are preserved (problem 1's row 11 is
present).  Second conjunct: an abort during problem 1 preserves the
already-appended row of problem 0.  Third conjunct: in
generate_dataset(), which writes all rows only after the loop, the same
abort loses every completed row because no file is written at all. -/
theorem dataset_interrupt_bug :
    solverLoop (fun i => (10 : ℕ) + i) (fun i => if i = 0 then some true else none)
      [0, 1] [100] = ([100, 11], true) ∧
    solverLoop (fun i => (10 : ℕ) + i) (fun i => if i = 1 then some false else none)
      [0, 1] [100] = ([100, 10], false) ∧
    generateLoop (fun i => (10 : ℕ) + i) (fun i => if i = 1 then some false else none)
      [0, 1] [] = none :=
  ⟨rfl, rfl, rfl⟩

end JFA

namespace JFA

/-- Optional opportunity entry at effector e, target t. -/
def JState.oppQ (s : JState) (e t : ℕ) : Option Opp :=
  s.Opportunities[e]?.bind fun row => row[t]?

/-- Bridge between the defaulted accessor and the optional accessor. -/
theorem opp_eq_oppQ (s : JState) (e t : ℕ) :
    s.opp e t = (s.oppQ e t).getD ⟨false, 0⟩ := by
  unfold JState.opp JState.oppQ
  cases he : s.Opportunities[e]? with
  | none =>
    have hlen : s.Opportunities.length ≤ e := by
      by_contra hlt
      push_neg at hlt
      rw [List.getElem?_eq_getElem hlt] at he
      exact Option.noConfusion he
    rw [List.getD_eq_default _ _ hlen]
    rfl
  | some row =>
    have hlt : e < s.Opportunities.length := by
      by_contra hge
      push_neg at hge
      rw [List.getElem?_eq_none hge] at he
      exact Option.noConfusion he
    have hrow : s.Opportunities.getD e [] = row := by
      rw [List.getD_eq_getElem _ _ hlt]
      rw [List.getElem?_eq_getElem hlt] at he
      exact Option.some.inj he
    rw [hrow, Option.some_bind]
    cases ht : row[t]? with
    | none =>
      have hlen : row.length ≤ t := by
        by_contra hlt2
        push_neg at hlt2
        rw [List.getElem?_eq_getElem hlt2] at ht
        exact Option.noConfusion ht
      rw [List.getD_eq_default _ _ hlen]
      rfl
    | some o =>
      have hlt2 : t < row.length := by
        by_contra hge
        push_neg at hge
        rw [List.getElem?_eq_none hge] at ht
        exact Option.noConfusion ht
      rw [List.getD_eq_getElem _ _ hlt2]
      rw [List.getElem?_eq_getElem hlt2] at ht
      rw [Option.some.inj ht]
      rfl

/-- Membership in the selectable pair enumeration is exactly an in-range
selectable entry. -/
theorem mem_selectablePairs {s : JState} {e t : ℕ} :
    (e, t) ∈ selectablePairs s ↔ ∃ o, s.oppQ e t = some o ∧ o.selectable = true := by
  unfold selectablePairs JState.oppQ
  rw [List.mem_flatMap]
  constructor
  · rintro ⟨er, her, hin⟩
    rw [List.mem_filterMap] at hin
    obtain ⟨tc, htc, heq⟩ := hin
    by_cases hsel : tc.2.selectable
    · rw [if_pos hsel] at heq
      have hpair : ((er.1, tc.1) : ℕ × ℕ) = (e, t) := Option.some.inj heq
      have he2 : er.1 = e := congrArg Prod.fst hpair
      have ht2 : tc.1 = t := congrArg Prod.snd hpair
      rw [List.mem_enum_iff_getElem?] at her htc
      refine ⟨tc.2, ?_, hsel⟩
      rw [← he2, her, Option.some_bind, ← ht2, htc]
    · rw [if_neg hsel] at heq
      exact Option.noConfusion heq
  · rintro ⟨o, ho, hsel⟩
    cases he : s.Opportunities[e]? with
    | none =>
      rw [he, Option.none_bind] at ho
      exact Option.noConfusion ho
    | some row =>
      rw [he, Option.some_bind] at ho
      refine ⟨(e, row), List.mem_enum_iff_getElem?.mpr he, ?_⟩
      rw [List.mem_filterMap]
      exact ⟨(t, o), List.mem_enum_iff_getElem?.mpr ho, by rw [if_pos hsel]⟩

/-- Pointwise description of the opportunity matrix after a transition:
the used pairing's flag and, on a now fully selected target, the whole
column's flags are cleared; every success probability is kept. -/
theorem update_oppQ (s : JState) (a : ℕ × ℕ) (e t : ℕ) :
    (update_state a s).1.oppQ e t =
      (s.oppQ e t).map fun o =>
        if t = a.2 ∧ (1 ≤ (s.Targets.getD a.2 ⟨0, 0⟩).selected + 1/2 ∨ e = a.1) then
          ⟨false, o.psuccess⟩ else o := by
  unfold update_state JState.oppQ
  dsimp only
  rw [List.getElem?_mapIdx]
  cases he : s.Opportunities[e]? with
  | none => rfl
  | some row =>
    simp only [Option.map_some', Option.some_bind, List.getElem?_mapIdx]

/-- Targets after a transition: the engaged target's row is replaced,
all others are kept. -/
theorem update_targets (s : JState) (a : ℕ × ℕ) :
    (update_state a s).1.Targets =
      s.Targets.set a.2
        ⟨(s.Targets.getD a.2 ⟨0, 0⟩).value - (update_state a s).2.1,
          (s.Targets.getD a.2 ⟨0, 0⟩).selected + 1/2⟩ :=
  rfl

/-- Effector features are untouched by a transition. -/
theorem update_effectors (s : JState) (a : ℕ × ℕ) :
    (update_state a s).1.Effectors = s.Effectors :=
  rfl

/-- Reward returned by a transition. -/
theorem update_reward (s : JState) (a : ℕ × ℕ) :
    (update_state a s).2.1 = (s.Targets.getD a.2 ⟨0, 0⟩).value * (s.opp a.1 a.2).psuccess :=
  rfl

/-- Terminal flag returned by a transition. -/
theorem update_terminal (s : JState) (a : ℕ × ℕ) :
    (update_state a s).2.2 = decide (selectablePairs (update_state a s).1 = []) :=
  rfl

end JFA

namespace JFA

/-- Opportunity rows after a transition, one row at a time. -/
theorem update_opps_getElem (s : JState) (a : ℕ × ℕ) (e : ℕ) :
    (update_state a s).1.Opportunities[e]? =
      (s.Opportunities[e]?).map fun row =>
        row.mapIdx fun t' o =>
          if t' = a.2 ∧ (1 ≤ (s.Targets.getD a.2 ⟨0, 0⟩).selected + 1/2 ∨ e = a.1) then
            ⟨false, o.psuccess⟩ else o := by
  unfold update_state
  dsimp only
  exact List.getElem?_mapIdx

/-- Selectable pairs only disappear along a transition, and the used
pairing itself always disappears. -/
theorem selectable_update_mono {s : JState} {a : ℕ × ℕ} {e t : ℕ}
    (h : (e, t) ∈ selectablePairs (update_state a s).1) :
    (e, t) ∈ selectablePairs s ∧
      ¬(t = a.2 ∧ (1 ≤ (s.Targets.getD a.2 ⟨0, 0⟩).selected + 1/2 ∨ e = a.1)) := by
  rw [mem_selectablePairs] at h
  obtain ⟨o', ho', hsel⟩ := h
  rw [update_oppQ] at ho'
  cases ho : s.oppQ e t with
  | none =>
    rw [ho] at ho'
    exact Option.noConfusion ho'
  | some o =>
    rw [ho, Option.map_some'] at ho'
    have ho2 := Option.some.inj ho'
    by_cases hc : t = a.2 ∧ (1 ≤ (s.Targets.getD a.2 ⟨0, 0⟩).selected + 1/2 ∨ e = a.1)
    · rw [if_pos hc] at ho2
      rw [← ho2] at hsel
      exact absurd hsel (by simp)
    · rw [if_neg hc] at ho2
      exact ⟨mem_selectablePairs.mpr ⟨o, ho, ho2 ▸ hsel⟩, hc⟩

/-- The used pairing is not selectable after the transition. -/
theorem update_pair_gone {s : JState} {a : ℕ × ℕ} :
    a ∉ selectablePairs (update_state a s).1 := by
  intro h
  obtain ⟨e, t⟩ := a
  exact (selectable_update_mono h).2 ⟨rfl, Or.inr rfl⟩

/-- Success-probability columns are unchanged by a transition. -/
theorem update_psuccessCol (s : JState) (a : ℕ × ℕ) (i : ℕ) :
    psuccessCol (update_state a s).1 i = psuccessCol s i := by
  unfold psuccessCol
  refine List.ext_getElem? fun n => ?_
  rw [List.getElem?_map, List.getElem?_map, update_opps_getElem]
  cases he : s.Opportunities[n]? with
  | none => rfl
  | some row =>
    simp only [Option.map_some']
    refine congrArg some ?_
    simp only [List.getD_eq_getElem?_getD, List.getElem?_mapIdx]
    cases ht : row[i]? with
    | none => rfl
    | some o =>
      simp only [Option.map_some', Option.getD_some]
      split
      · rfl
      · rfl

/-- Selectable counts of other targets' columns are unchanged by a
transition. -/
theorem update_countSelectableCol (s : JState) (a : ℕ × ℕ) (i : ℕ) (hi : i ≠ a.2) :
    countSelectableCol (update_state a s).1 i = countSelectableCol s i := by
  unfold countSelectableCol
  refine congrArg List.sum (List.ext_getElem? fun n => ?_)
  rw [List.getElem?_map, List.getElem?_map, update_opps_getElem]
  cases he : s.Opportunities[n]? with
  | none => rfl
  | some row =>
    simp only [Option.map_some']
    refine congrArg some ?_
    simp only [List.getD_eq_getElem?_getD, List.getElem?_mapIdx]
    cases ht : row[i]? with
    | none => rfl
    | some o =>
      simp only [Option.map_some', Option.getD_some]
      have hcon : ¬(i = a.2 ∧
          (1 ≤ (s.Targets[a.2]?.getD ⟨0, 0⟩).selected + 1 / 2 ∨ n = a.1)) :=
        fun hcon => hi hcon.1
      simp only [if_neg hcon]

/-- Engaged target's feature row after a transition, at an in-range
index. -/
theorem update_target_hit (s : JState) (a : ℕ × ℕ) (ht : a.2 < s.Targets.length) :
    (update_state a s).1.Targets.getD a.2 ⟨0, 0⟩ =
      ⟨(s.Targets.getD a.2 ⟨0, 0⟩).value - (update_state a s).2.1,
        (s.Targets.getD a.2 ⟨0, 0⟩).selected + 1/2⟩ := by
  rw [update_targets, List.getD_eq_getElem?_getD, List.getElem?_set, if_pos rfl, if_pos ht]
  rfl

/-- Other targets' feature rows are unchanged by a transition. -/
theorem update_target_miss (s : JState) (a : ℕ × ℕ) (i : ℕ) (hi : i ≠ a.2) :
    (update_state a s).1.Targets.getD i ⟨0, 0⟩ = s.Targets.getD i ⟨0, 0⟩ := by
  rw [update_targets, List.getD_eq_getElem?_getD, List.getElem?_set,
    if_neg (fun hc => hi hc.symm), ← List.getD_eq_getElem?_getD]

/-- Sum of a rational list after replacing an in-range entry. -/
theorem sum_set_eq (L : List ℚ) (n : ℕ) (x : ℚ) (h : n < L.length) :
    (L.set n x).sum = L.sum - L[n] + x := by
  have hdec : L.sum = (L.take n).sum + (L[n] + (L.drop (n + 1)).sum) := by
    conv_lhs => rw [← List.take_append_drop n L]
    rw [List.sum_append, List.drop_eq_getElem_cons h, List.sum_cons]
  rw [List.sum_set, if_pos h, hdec]
  ring

/-- Total target value decreases by exactly the returned reward. -/
theorem sumValues_update (s : JState) (a : ℕ × ℕ) (ht : a.2 < s.Targets.length) :
    sumValues (update_state a s).1 = sumValues s - (update_state a s).2.1 := by
  unfold sumValues
  rw [update_targets, List.map_set, sum_set_eq _ _ _ (by simpa using ht)]
  rw [List.getElem_map]
  dsimp only
  rw [List.getD_eq_getElem _ _ ht]
  ring

end JFA

namespace JFA

/-- Number of selectable opportunities in the whole matrix, the
termination measure for exhaustive exploration. -/
def selCount (s : JState) : ℕ :=
  (s.Opportunities.map fun row => row.countP fun o => o.selectable).sum

/-- Count of a predicate never grows under an index-aware map that only
clears it. -/
theorem countP_mapIdx_le (p : Opp → Bool) (row : List Opp) :
    ∀ F : ℕ → Opp → Opp, (∀ i o, p (F i o) = true → p o = true) →
      (row.mapIdx F).countP p ≤ row.countP p := by
  induction row with
  | nil =>
    intro F hF
    simp
  | cons o row ih =>
    intro F hF
    rw [List.mapIdx_cons, List.countP_cons, List.countP_cons]
    have h1 := ih (fun i => F (i + 1)) (fun i o h => hF (i + 1) o h)
    by_cases hp : p (F 0 o) = true
    · rw [if_pos hp, if_pos (hF 0 o hp)]
      omega
    · rw [if_neg hp]
      split <;> omega

/-- Count of a predicate strictly drops under an index-aware map that
only clears it and clears it at one witnessed position. -/
theorem countP_mapIdx_lt (p : Opp → Bool) (row : List Opp) :
    ∀ (F : ℕ → Opp → Opp) (t : ℕ) (o : Opp), (∀ i o', p (F i o') = true → p o' = true) →
      row[t]? = some o → p o = true → p (F t o) = false →
      (row.mapIdx F).countP p < row.countP p := by
  induction row with
  | nil =>
    intro F t o hF hget
    simp at hget
  | cons x row ih =>
    intro F t o hF hget hsel hkill
    rw [List.mapIdx_cons, List.countP_cons, List.countP_cons]
    match t with
    | 0 =>
      have hx : x = o := by
        rw [List.getElem?_cons_zero] at hget
        exact Option.some.inj hget
      subst hx
      rw [if_pos hsel, if_neg (by rw [hkill]; exact Bool.false_ne_true)]
      have h1 := countP_mapIdx_le p row (fun i => F (i + 1)) (fun i o' h => hF (i + 1) o' h)
      omega
    | t' + 1 =>
      have hget2 : row[t']? = some o := by
        rwa [List.getElem?_cons_succ] at hget
      have h1 := ih (fun i => F (i + 1)) t' o (fun i o' h => hF (i + 1) o' h) hget2 hsel hkill
      by_cases hp : p (F 0 x) = true
      · rw [if_pos hp, if_pos (hF 0 x hp)]
        omega
      · rw [if_neg hp]
        split <;> omega

/-- Sum of per-row counts never grows under an index-aware row map whose
rows never gain count. -/
theorem sum_countP_mapIdx_le (p : Opp → Bool) (L : List (List Opp)) :
    ∀ F : ℕ → List Opp → List Opp, (∀ e row, ((F e row).countP p) ≤ row.countP p) →
      ((L.mapIdx F).map fun row => row.countP p).sum ≤
        (L.map fun row => row.countP p).sum := by
  induction L with
  | nil =>
    intro F hF
    simp
  | cons row L ih =>
    intro F hF
    rw [List.mapIdx_cons, List.map_cons, List.map_cons, List.sum_cons, List.sum_cons]
    have h1 := ih (fun i => F (i + 1)) (fun i row => hF (i + 1) row)
    have h2 := hF 0 row
    omega

/-- Sum of per-row counts strictly drops when additionally one witnessed
row strictly drops. -/
theorem sum_countP_mapIdx_lt (p : Opp → Bool) (L : List (List Opp)) :
    ∀ (F : ℕ → List Opp → List Opp) (e : ℕ) (row : List Opp),
      (∀ i r, ((F i r).countP p) ≤ r.countP p) → L[e]? = some row →
      (F e row).countP p < row.countP p →
      ((L.mapIdx F).map fun r => r.countP p).sum < (L.map fun r => r.countP p).sum := by
  induction L with
  | nil =>
    intro F e row hF hget
    simp at hget
  | cons r0 L ih =>
    intro F e row hF hget hlt
    rw [List.mapIdx_cons, List.map_cons, List.map_cons, List.sum_cons, List.sum_cons]
    match e with
    | 0 =>
      have hr : r0 = row := by
        rw [List.getElem?_cons_zero] at hget
        exact Option.some.inj hget
      subst hr
      have h1 := sum_countP_mapIdx_le p L (fun i => F (i + 1)) (fun i r => hF (i + 1) r)
      omega
    | e' + 1 =>
      have hget2 : L[e']? = some row := by
        rwa [List.getElem?_cons_succ] at hget
      have h1 := ih (fun i => F (i + 1)) e' row (fun i r => hF (i + 1) r) hget2 hlt
      have h2 := hF 0 r0
      omega

/-- Applying a selectable action strictly decreases the number of
selectable opportunities. -/
theorem selCount_update_lt {s : JState} {a : ℕ × ℕ}
    (ha : a ∈ selectablePairs s) : selCount (update_state a s).1 < selCount s := by
  obtain ⟨e, t⟩ := a
  rw [mem_selectablePairs] at ha
  obtain ⟨o, ho, hsel⟩ := ha
  unfold JState.oppQ at ho
  cases he : s.Opportunities[e]? with
  | none =>
    rw [he, Option.none_bind] at ho
    exact Option.noConfusion ho
  | some row =>
    rw [he, Option.some_bind] at ho
    unfold selCount update_state
    dsimp only
    refine sum_countP_mapIdx_lt _ _ _ e row ?_ he ?_
    · intro i r
      refine countP_mapIdx_le _ _ _ ?_
      intro t' o' h
      by_cases hc : t' = t ∧ (1 ≤ (s.Targets.getD t ⟨0, 0⟩).selected + 1/2 ∨ i = e)
      · rw [if_pos hc] at h
        exact absurd h (by simp)
      · rw [if_neg hc] at h
        exact h
    · refine countP_mapIdx_lt _ _ _ t o ?_ ho hsel ?_
      · intro t' o' h
        by_cases hc : t' = t ∧ (1 ≤ (s.Targets.getD t ⟨0, 0⟩).selected + 1/2 ∨ e = e)
        · rw [if_pos hc] at h
          exact absurd h (by simp)
        · rw [if_neg hc] at h
          exact h
      · rw [if_pos ⟨rfl, Or.inr rfl⟩]

end JFA

namespace JFA

/-- Bound from an optional opportunity entry: the engaged target index
is inside the target table. -/
theorem selectable_target_lt {s : JState} {a : ℕ × ℕ} (hrect : ∀ row ∈ s.Opportunities,
    row.length = s.Targets.length) (ha : a ∈ selectablePairs s) :
    a.2 < s.Targets.length := by
  obtain ⟨e, t⟩ := a
  rw [mem_selectablePairs] at ha
  obtain ⟨o, ho, -⟩ := ha
  unfold JState.oppQ at ho
  cases he : s.Opportunities[e]? with
  | none =>
    rw [he, Option.none_bind] at ho
    exact Option.noConfusion ho
  | some row =>
    rw [he, Option.some_bind] at ho
    obtain ⟨hlt, -⟩ := List.getElem?_eq_some_iff.mp ho
    have hmem : row ∈ s.Opportunities :=
      List.mem_iff_getElem?.mpr ⟨e, he⟩
    exact (hrect row hmem) ▸ hlt

/-- Selected fraction of the engaged target of a selectable pair is not
one. -/
theorem selectable_sel_ne_one {s : JState} {a : ℕ × ℕ} (hwf : WFState s)
    (ha : a ∈ selectablePairs s) :
    (s.Targets.getD a.2 ⟨0, 0⟩).selected ≠ 1 := by
  obtain ⟨e, t⟩ := a
  rw [mem_selectablePairs] at ha
  obtain ⟨o, ho, hsel⟩ := ha
  unfold JState.oppQ at ho
  cases he : s.Opportunities[e]? with
  | none =>
    rw [he, Option.none_bind] at ho
    exact Option.noConfusion ho
  | some row =>
    rw [he, Option.some_bind] at ho
    exact hwf.2.2.2 row (List.mem_iff_getElem?.mpr ⟨e, he⟩) (t, o)
      (List.mem_enum_iff_getElem?.mpr ho) hsel

/-- Success probabilities read through the defaulted accessor stay in
the unit interval on well-formed states. -/
theorem opp_psuccess_bounds {s : JState} (hwf : WFState s) (e t : ℕ) :
    0 ≤ (s.opp e t).psuccess ∧ (s.opp e t).psuccess ≤ 1 := by
  rw [opp_eq_oppQ]
  unfold JState.oppQ
  cases he : s.Opportunities[e]? with
  | none => simp
  | some row =>
    rw [Option.some_bind]
    cases ht : row[t]? with
    | none => simp
    | some o =>
      rw [Option.getD_some]
      exact hwf.2.2.1 row (List.mem_iff_getElem?.mpr ⟨e, he⟩) o
        (List.mem_iff_getElem?.mpr ⟨t, ht⟩)

/-- Engaged target's feature row of a selectable pair on a well-formed
state: nonnegative value and selected fraction zero or one half. -/
theorem selectable_target_facts {s : JState} {a : ℕ × ℕ} (hwf : WFState s)
    (ha : a ∈ selectablePairs s) :
    0 ≤ (s.Targets.getD a.2 ⟨0, 0⟩).value ∧
      ((s.Targets.getD a.2 ⟨0, 0⟩).selected = 0 ∨
        (s.Targets.getD a.2 ⟨0, 0⟩).selected = 1/2) := by
  have hlt := selectable_target_lt hwf.1 ha
  have hmem : s.Targets.getD a.2 ⟨0, 0⟩ ∈ s.Targets := by
    rw [List.getD_eq_getElem _ _ hlt]
    exact List.getElem_mem hlt
  obtain ⟨hv, hsel⟩ := hwf.2.1 _ hmem
  refine ⟨hv, ?_⟩
  rcases hsel with h | h | h
  · exact Or.inl h
  · exact Or.inr h
  · exact absurd h (selectable_sel_ne_one hwf ha)

/-- Reward of a transition on a well-formed state is nonnegative. -/
theorem update_reward_nonneg {s : JState} {a : ℕ × ℕ} (hwf : WFState s)
    (ha : a ∈ selectablePairs s) : 0 ≤ (update_state a s).2.1 := by
  rw [update_reward]
  exact mul_nonneg (selectable_target_facts hwf ha).1 (opp_psuccess_bounds hwf a.1 a.2).1

/-- Selectable pairs after a transition are selectable pairs before. -/
theorem update_pairs_subset (s : JState) (a : ℕ × ℕ) :
    selectablePairs (update_state a s).1 ⊆ selectablePairs s := by
  intro x hx
  obtain ⟨e, t⟩ := x
  exact (selectable_update_mono hx).1

end JFA

namespace JFA

/-- Transitions by selectable actions preserve well-formedness. -/
theorem WF_update {s : JState} {a : ℕ × ℕ} (hwf : WFState s)
    (ha : a ∈ selectablePairs s) : WFState (update_state a s).1 := by
  have hlt := selectable_target_lt hwf.1 ha
  obtain ⟨hv0, hsel01⟩ := selectable_target_facts hwf ha
  obtain ⟨hp0, hp1⟩ := opp_psuccess_bounds hwf a.1 a.2
  refine ⟨?_, ?_, ?_, ?_⟩
  · intro row' hrow'
    obtain ⟨e, he⟩ := List.mem_iff_getElem?.mp hrow'
    rw [update_opps_getElem] at he
    cases he2 : s.Opportunities[e]? with
    | none =>
      rw [he2, Option.map_none'] at he
      exact Option.noConfusion he
    | some row =>
      rw [he2, Option.map_some'] at he
      have hrw : row' = _ := (Option.some.inj he).symm
      rw [hrw, List.length_mapIdx, update_targets, List.length_set]
      exact hwf.1 row (List.mem_iff_getElem?.mpr ⟨e, he2⟩)
  · intro t' ht'
    obtain ⟨n, hn⟩ := List.mem_iff_getElem?.mp ht'
    rw [update_targets, List.getElem?_set] at hn
    by_cases hcase : a.2 = n
    · rw [if_pos hcase, if_pos (hcase ▸ hlt)] at hn
      have ht2 : t' = _ := (Option.some.inj hn).symm
      rw [ht2]
      constructor
      · have : (s.Targets.getD a.2 ⟨0, 0⟩).value - (update_state a s).2.1 =
            (s.Targets.getD a.2 ⟨0, 0⟩).value * (1 - (s.opp a.1 a.2).psuccess) := by
          rw [update_reward]
          ring
        rw [this]
        exact mul_nonneg hv0 (by linarith)
      · rcases hsel01 with h | h
        · rw [h]
          norm_num
        · rw [h]
          norm_num
    · rw [if_neg hcase] at hn
      exact hwf.2.1 t' (List.mem_iff_getElem?.mpr ⟨n, hn⟩)
  · intro row' hrow' o' ho'
    obtain ⟨e, he⟩ := List.mem_iff_getElem?.mp hrow'
    rw [update_opps_getElem] at he
    cases he2 : s.Opportunities[e]? with
    | none =>
      rw [he2, Option.map_none'] at he
      exact Option.noConfusion he
    | some row =>
      rw [he2, Option.map_some'] at he
      have hrw : row' = _ := (Option.some.inj he).symm
      subst hrw
      obtain ⟨tIdx, htIdx⟩ := List.mem_iff_getElem?.mp ho'
      rw [List.getElem?_mapIdx] at htIdx
      cases ht2 : row[tIdx]? with
      | none =>
        rw [ht2, Option.map_none'] at htIdx
        exact Option.noConfusion htIdx
      | some o =>
        rw [ht2, Option.map_some'] at htIdx
        have ho2 : o' = _ := (Option.some.inj htIdx).symm
        have hbounds := hwf.2.2.1 row (List.mem_iff_getElem?.mpr ⟨e, he2⟩) o
          (List.mem_iff_getElem?.mpr ⟨tIdx, ht2⟩)
        rw [ho2]
        split
        · exact hbounds
        · exact hbounds
  · intro row' hrow' it hit hsel'
    obtain ⟨e, he⟩ := List.mem_iff_getElem?.mp hrow'
    rw [update_opps_getElem] at he
    cases he2 : s.Opportunities[e]? with
    | none =>
      rw [he2, Option.map_none'] at he
      exact Option.noConfusion he
    | some row =>
      rw [he2, Option.map_some'] at he
      have hrw : row' = _ := (Option.some.inj he).symm
      subst hrw
      rw [List.mem_enum_iff_getElem?, List.getElem?_mapIdx] at hit
      cases ht2 : row[it.1]? with
      | none =>
        rw [ht2, Option.map_none'] at hit
        exact Option.noConfusion hit
      | some o =>
        rw [ht2, Option.map_some'] at hit
        have ho2 : it.2 = _ := (Option.some.inj hit).symm
        by_cases hcond : it.1 = a.2 ∧
            (1 ≤ (s.Targets.getD a.2 ⟨0, 0⟩).selected + 1/2 ∨ e = a.1)
        · rw [ho2] at hsel'
          rw [if_pos hcond] at hsel'
          exact absurd hsel' (by simp)
        · rw [ho2] at hsel'
          rw [if_neg hcond] at hsel'
          by_cases hti : it.1 = a.2
          · rw [hti, update_target_hit s a hlt]
            have hnotone : ¬(1 ≤ (s.Targets.getD a.2 ⟨0, 0⟩).selected + 1/2) := by
              intro hone
              exact hcond ⟨hti, Or.inl hone⟩
            intro heq
            dsimp only at heq
            rw [heq] at hnotone
            exact hnotone le_rfl
          · rw [update_target_miss s a it.1 hti]
            exact hwf.2.2.2 row (List.mem_iff_getElem?.mpr ⟨e, he2⟩) (it.1, o)
              (List.mem_enum_iff_getElem?.mpr ht2) hsel'

end JFA

namespace JFA

/-- Modelled from the spec: the optimal achievable reward from a state,
the maximum total reward over all valid action sequences (the empty
sequence included); since selectable pairs strictly decrease, the
recursion over all selectable actions terminates. -/
def bestReward (s : JState) : ℚ :=
  ((selectablePairs s).attach.map fun ap =>
    (update_state ap.1 s).2.1 + bestReward (update_state ap.1 s).1).foldr max 0
termination_by selCount s
decreasing_by exact selCount_update_lt ap.2

/-- Valid action sequences: PathTo s as sE c holds when the actions as,
each selectable when taken, lead from s to sE claiming total reward c. -/
inductive PathTo : JState → List (ℕ × ℕ) → JState → ℚ → Prop where
  | nil (s : JState) : PathTo s [] s 0
  | cons {s s1 sE : JState} {a : ℕ × ℕ} {as : List (ℕ × ℕ)} {r c : ℚ} {b : Bool} :
      a ∈ selectablePairs s → update_state a s = (s1, r, b) →
      PathTo s1 as sE c → PathTo s (a :: as) sE (r + c)

/-- Every member of a rational list is at most its running maximum with
zero. -/
theorem le_foldr_max (l : List ℚ) (x : ℚ) (hx : x ∈ l) : x ≤ l.foldr max 0 := by
  induction l with
  | nil => exact absurd hx (List.not_mem_nil x)
  | cons y l ih =>
    rw [List.foldr_cons]
    rcases List.mem_cons.mp hx with h | h
    · rw [h]
      exact le_max_left _ _
    · exact le_trans (ih h) (le_max_right _ _)

/-- The running maximum with zero is bounded by any nonnegative upper
bound of the list. -/
theorem foldr_max_le (l : List ℚ) (b : ℚ) (hb : 0 ≤ b) (h : ∀ x ∈ l, x ≤ b) :
    l.foldr max 0 ≤ b := by
  induction l with
  | nil => exact hb
  | cons y l ih =>
    rw [List.foldr_cons]
    exact max_le (h y (List.mem_cons_self y l)) (ih fun x hx => h x (List.mem_cons_of_mem y hx))

/-- The running maximum with zero is nonnegative. -/
theorem foldr_max_nonneg (l : List ℚ) : 0 ≤ l.foldr max 0 := by
  induction l with
  | nil => exact le_refl 0
  | cons y l ih =>
    rw [List.foldr_cons]
    exact le_trans ih (le_max_right _ _)

/-- The running maximum with zero is zero or attained by a member. -/
theorem foldr_max_cases (l : List ℚ) : l.foldr max 0 = 0 ∨ l.foldr max 0 ∈ l := by
  induction l with
  | nil => exact Or.inl rfl
  | cons y l ih =>
    rw [List.foldr_cons]
    rcases max_choice y (l.foldr max 0) with h | h
    · rw [h]
      exact Or.inr (List.mem_cons_self y l)
    · rw [h]
      rcases ih with h2 | h2
      · exact Or.inl h2
      · exact Or.inr (List.mem_cons_of_mem y h2)

/-- Unfolding equation of bestReward. -/
theorem bestReward_unfold (s : JState) :
    bestReward s = ((selectablePairs s).attach.map fun ap =>
      (update_state ap.1 s).2.1 + bestReward (update_state ap.1 s).1).foldr max 0 := by
  rw [bestReward]

/-- Optimal reward is nonnegative. -/
theorem bestReward_nonneg (s : JState) : 0 ≤ bestReward s := by
  rw [bestReward_unfold]
  exact foldr_max_nonneg _

/-- Optimal reward of a terminal state is zero. -/
theorem bestReward_terminal {s : JState} (h : selectablePairs s = []) : bestReward s = 0 := by
  rw [bestReward_unfold, h]
  rfl

/-- Each selectable action's one-step reward plus the continuation
optimum is at most the optimum. -/
theorem bestReward_ge {s : JState} {a : ℕ × ℕ} (ha : a ∈ selectablePairs s) :
    (update_state a s).2.1 + bestReward (update_state a s).1 ≤ bestReward s := by
  conv_rhs => rw [bestReward_unfold s]
  exact le_foldr_max _ _ (List.mem_map.mpr ⟨⟨a, ha⟩, List.mem_attach _ _, rfl⟩)

/-- On a well-formed nonterminal state the optimum is attained by some
selectable action. -/
theorem bestReward_choice {s : JState} (hwf : WFState s)
    (hne : selectablePairs s ≠ []) :
    ∃ a ∈ selectablePairs s,
      bestReward s = (update_state a s).2.1 + bestReward (update_state a s).1 := by
  rcases foldr_max_cases ((selectablePairs s).attach.map fun ap =>
      (update_state ap.1 s).2.1 + bestReward (update_state ap.1 s).1) with h | h
  · obtain ⟨a, as, hcons⟩ := List.exists_cons_of_ne_nil hne
    have ha : a ∈ selectablePairs s := by
      rw [hcons]
      exact List.mem_cons_self a as
    refine ⟨a, ha, ?_⟩
    have h1 : (update_state a s).2.1 + bestReward (update_state a s).1 ≤ bestReward s :=
      bestReward_ge ha
    have h2 : 0 ≤ (update_state a s).2.1 + bestReward (update_state a s).1 :=
      add_nonneg (update_reward_nonneg hwf ha) (bestReward_nonneg _)
    have h3 : bestReward s = 0 := by
      rw [bestReward_unfold s]
      exact h
    linarith
  · obtain ⟨ap, -, heq⟩ := List.mem_map.mp h
    refine ⟨ap.1, ap.2, ?_⟩
    rw [bestReward_unfold s]
    exact heq.symm

/-- Upper bound: every valid action sequence claims at most the
optimum. -/
theorem PathTo_le_bestReward {s : JState} {as : List (ℕ × ℕ)} {sE : JState} {c : ℚ}
    (h : PathTo s as sE c) : WFState s → c ≤ bestReward s := by
  induction h with
  | nil s => exact fun _ => bestReward_nonneg s
  | cons ha hupd hrest ih =>
    intro hwf
    rename_i s s1 sE a as r c b
    have hs1 : s1 = (update_state a s).1 := by rw [hupd]
    have hr : r = (update_state a s).2.1 := by rw [hupd]
    have hwf1 : WFState s1 := hs1 ▸ WF_update hwf ha
    have h1 := ih hwf1
    have h2 := bestReward_ge ha
    rw [hs1] at h1
    rw [hr]
    linarith

/-- Attainment: on a well-formed state some valid sequence ending in a
terminal state claims exactly the optimum. -/
theorem bestReward_attained (s : JState) (hwf : WFState s) :
    ∃ as sE, PathTo s as sE (bestReward s) ∧ selectablePairs sE = [] := by
  generalize hn : selCount s = n
  induction n using Nat.strong_induction_on generalizing s with
  | _ n ih =>
    by_cases hemp : selectablePairs s = []
    · exact ⟨[], s, (bestReward_terminal hemp) ▸ PathTo.nil s, hemp⟩
    · obtain ⟨a, ha, heq⟩ := bestReward_choice hwf hemp
      have hlt : selCount (update_state a s).1 < n := hn ▸ selCount_update_lt ha
      obtain ⟨as1, sE, hpath, hterm⟩ :=
        ih _ hlt (update_state a s).1 (WF_update hwf ha) rfl
      refine ⟨a :: as1, sE, ?_, hterm⟩
      rw [heq]
      exact PathTo.cons ha (by rfl) hpath

end JFA

namespace JFA

/-- Closed form of the diminishing-returns simulation. -/
theorem simulateMoves_eq (p : ℚ) (k : ℕ) (v : ℚ) :
    simulateMoves p k v = v * (1 - (1 - p) ^ k) := by
  induction k generalizing v with
  | zero => simp [simulateMoves]
  | succ k ih =>
    rw [simulateMoves, ih (v - v * p), pow_succ]
    ring

/-- Simulated reward is nonnegative for probabilities in the unit
interval and nonnegative value. -/
theorem simulateMoves_nonneg {p v : ℚ} (hp0 : 0 ≤ p) (hp1 : p ≤ 1) (hv : 0 ≤ v)
    (k : ℕ) : 0 ≤ simulateMoves p k v := by
  rw [simulateMoves_eq]
  have h1 : (1 - p) ^ k ≤ 1 := pow_le_one₀ (by linarith) (by linarith)
  have h2 : (0 : ℚ) ≤ (1 - p) ^ k := pow_nonneg (by linarith) k
  nlinarith

/-- Entries of a success-probability column lie in the unit interval on
a well-formed state. -/
theorem psuccessCol_bounds {s : JState} (hwf : WFState s) (i : ℕ) :
    ∀ v ∈ psuccessCol s i, 0 ≤ v ∧ v ≤ 1 := by
  intro v hv
  unfold psuccessCol at hv
  obtain ⟨row, hrow, hval⟩ := List.mem_map.mp hv
  rw [List.getD_eq_getElem?_getD] at hval
  cases ht : row[i]? with
  | none =>
    rw [ht] at hval
    simp at hval
    rw [← hval]
    norm_num
  | some o =>
    rw [ht, Option.getD_some] at hval
    rw [← hval]
    exact hwf.2.2.1 row hrow o (List.mem_iff_getElem?.mpr ⟨i, ht⟩)

/-- Every member of a natural number list is at most its sum. -/
theorem nat_mem_le_sum {l : List ℕ} {x : ℕ} (hx : x ∈ l) : x ≤ l.sum := by
  induction l with
  | nil => exact absurd hx (List.not_mem_nil x)
  | cons y l ih =>
    rw [List.sum_cons]
    rcases List.mem_cons.mp hx with h | h
    · omega
    · have := ih h
      omega

/-- A selectable pair witnesses a positive selectable count in its
column. -/
theorem countSelectableCol_pos {s : JState} {e t : ℕ}
    (h : (e, t) ∈ selectablePairs s) : 1 ≤ countSelectableCol s t := by
  rw [mem_selectablePairs] at h
  obtain ⟨o, ho, hsel⟩ := h
  unfold JState.oppQ at ho
  cases he : s.Opportunities[e]? with
  | none =>
    rw [he, Option.none_bind] at ho
    exact Option.noConfusion ho
  | some row =>
    rw [he, Option.some_bind] at ho
    unfold countSelectableCol
    have hrow : row ∈ s.Opportunities := List.mem_iff_getElem?.mpr ⟨e, he⟩
    have hgd : row.getD t ⟨false, 0⟩ = o := by
      rw [List.getD_eq_getElem?_getD, ho, Option.getD_some]
    have hmem : (1 : ℕ) ∈ s.Opportunities.map fun row =>
        if (row.getD t ⟨false, 0⟩).selectable then 1 else 0 :=
      List.mem_map.mpr ⟨row, hrow, by rw [hgd, if_pos hsel]⟩
    exact nat_mem_le_sum hmem

/-- A positive selectable count in a column witnesses a selectable
pair. -/
theorem countSelectableCol_pos_inv {s : JState} {t : ℕ}
    (h : 1 ≤ countSelectableCol s t) : ∃ e, (e, t) ∈ selectablePairs s := by
  unfold countSelectableCol at h
  by_contra hnone
  push_neg at hnone
  have hall : ∀ x ∈ s.Opportunities.map fun row =>
      if (row.getD t ⟨false, 0⟩).selectable then 1 else 0, x = 0 := by
    intro x hx
    obtain ⟨row, hrow, hval⟩ := List.mem_map.mp hx
    obtain ⟨e, he⟩ := List.mem_iff_getElem?.mp hrow
    rw [List.getD_eq_getElem?_getD] at hval
    cases ht : row[t]? with
    | none =>
      rw [ht] at hval
      simp at hval
      omega
    | some o =>
      rw [ht, Option.getD_some] at hval
      by_cases hsel : o.selectable = true
      · exact absurd (mem_selectablePairs.mpr ⟨o, by
          unfold JState.oppQ
          rw [he, Option.some_bind, ht], hsel⟩) (hnone e)
      · rw [if_neg hsel] at hval
        omega
  have hz : (s.Opportunities.map fun row =>
      if (row.getD t ⟨false, 0⟩).selectable then 1 else 0).sum = 0 :=
    List.sum_eq_zero hall
  omega

/-- Contribution of a fully selected target. -/
theorem contribution_sel_one (pick : List ℚ → ℕ) (s : JState) (i : ℕ) (tgt : Target)
    (h : tgt.selected = 1) : targetContribution pick s i tgt = 0 := by
  unfold targetContribution
  rw [if_pos h]

/-- Contribution of a target with no selectable opportunity left. -/
theorem contribution_zero_count (pick : List ℚ → ℕ) (s : JState) (i : ℕ) (tgt : Target)
    (hcnt : countSelectableCol s i = 0)
    (hsel : tgt.selected = 0 ∨ tgt.selected = 1/2) :
    targetContribution pick s i tgt = 0 := by
  unfold targetContribution
  have hne : tgt.selected ≠ 1 := by
    rcases hsel with h | h <;> rw [h] <;> norm_num
  rw [if_neg hne]
  dsimp only
  rw [hcnt]
  have hmin : min ((1 - tgt.selected) * 2) (2 * ((0 : ℕ) : ℚ)) = 0 := by
    rcases hsel with h | h <;> rw [h] <;> norm_num
  rw [hmin]
  have h0 : pyInt 0 = 0 := by
    unfold pyInt
    norm_num
  rw [h0, if_pos rfl]

/-- Contribution of an engageable target with a selectable opportunity:
two simulated moves at selected fraction zero, one at one half. -/
theorem contribution_compute (pick : List ℚ → ℕ) (s : JState) (i : ℕ) (tgt : Target)
    (hcnt : 1 ≤ countSelectableCol s i)
    (hsel : tgt.selected = 0 ∨ tgt.selected = 1/2) :
    targetContribution pick s i tgt =
      simulateMoves ((psuccessCol s i).getD (pick (psuccessCol s i)) 0)
        (if tgt.selected = 0 then 2 else 1) tgt.value := by
  unfold targetContribution
  have hne : tgt.selected ≠ 1 := by
    rcases hsel with h | h <;> rw [h] <;> norm_num
  rw [if_neg hne]
  dsimp only
  have hc2 : (2 : ℚ) ≤ 2 * (countSelectableCol s i : ℚ) := by
    have : (1 : ℚ) ≤ (countSelectableCol s i : ℚ) := by exact_mod_cast hcnt
    linarith
  rcases hsel with h | h
  · rw [h]
    have hmin : min ((1 - (0 : ℚ)) * 2) (2 * (countSelectableCol s i : ℚ)) = 2 := by
      rw [min_eq_left (by linarith)]
      norm_num
    rw [hmin]
    have h2 : pyInt 2 = 2 := by
      unfold pyInt
      rw [if_pos (by norm_num)]
      norm_num
    rw [h2, if_neg (by norm_num : (2 : ℤ) ≠ 0), if_pos rfl]
    rfl
  · rw [h]
    have hmin : min ((1 - (1 / 2 : ℚ)) * 2) (2 * (countSelectableCol s i : ℚ)) = 1 := by
      rw [min_eq_left (by linarith)]
      norm_num
    rw [hmin]
    have h1 : pyInt 1 = 1 := by
      unfold pyInt
      rw [if_pos (by norm_num)]
      norm_num
    rw [h1, if_neg (by norm_num : (1 : ℤ) ≠ 0), if_neg (by norm_num : ¬(1 / 2 : ℚ) = 0)]
    rfl

end JFA

namespace JFA

/-- Sum over an indexed enumeration as a sum over the index range. -/
theorem sum_enumFrom (l : List Target) (f : ℕ → Target → ℚ) :
    ∀ n : ℕ, ((l.enumFrom n).map fun it => f it.1 it.2).sum =
      ∑ i ∈ Finset.range l.length, f (n + i) (l.getD i ⟨0, 0⟩) := by
  induction l with
  | nil =>
    intro n
    simp
  | cons x l ih =>
    intro n
    rw [List.enumFrom_cons, List.map_cons, List.sum_cons, ih (n + 1), List.length_cons,
      Finset.sum_range_succ']
    simp only [List.getD_cons_succ, List.getD_cons_zero, Nat.add_zero]
    rw [add_comm]
    congr 1
    refine Finset.sum_congr rfl fun i _ => ?_
    congr 1
    omega

/-- Heuristic value as a sum over target indices. -/
theorem heuristic_as_range (pick : List ℚ → ℕ) (s : JState) :
    astar_heuristicWith pick s =
      ∑ i ∈ Finset.range s.Targets.length,
        targetContribution pick s i (s.Targets.getD i ⟨0, 0⟩) := by
  unfold astar_heuristicWith
  have h := sum_enumFrom s.Targets (fun i tgt => targetContribution pick s i tgt) 0
  simp only [zero_add] at h
  exact h

/-- Per-target contributions are nonnegative on well-formed states. -/
theorem targetContribution_nonneg {s : JState} (hwf : WFState s) (pick : List ℚ → ℕ)
    (i : ℕ) (tgt : Target) (hv : 0 ≤ tgt.value) :
    0 ≤ targetContribution pick s i tgt := by
  unfold targetContribution
  split
  · exact le_refl 0
  · dsimp only
    split
    · exact le_refl 0
    · rename_i hne hrm
      rcases le_or_lt (pyInt (min ((1 - tgt.selected) * 2) (2 * countSelectableCol s i))) 0
        with hle | hpos
      · rw [Int.toNat_of_nonpos hle]
        rw [simulateMoves_eq]
        norm_num
      · have hbounds : 0 ≤ (psuccessCol s i).getD (pick (psuccessCol s i)) 0 ∧
            (psuccessCol s i).getD (pick (psuccessCol s i)) 0 ≤ 1 := by
          rw [List.getD_eq_getElem?_getD]
          cases hg : (psuccessCol s i)[pick (psuccessCol s i)]? with
          | none => norm_num
          | some q =>
            rw [Option.getD_some]
            exact psuccessCol_bounds hwf i q (List.mem_iff_getElem?.mpr ⟨_, hg⟩)
        exact simulateMoves_nonneg hbounds.1 hbounds.2 hv _

end JFA

namespace JFA

/-- Heuristic values are nonnegative on well-formed states. -/
theorem heuristic_nonneg {s : JState} (hwf : WFState s) (pick : List ℚ → ℕ) :
    0 ≤ astar_heuristicWith pick s := by
  rw [heuristic_as_range]
  refine Finset.sum_nonneg fun i hi => ?_
  rw [Finset.mem_range] at hi
  refine targetContribution_nonneg hwf pick i _ ?_
  rw [List.getD_eq_getElem _ _ hi]
  exact (hwf.2.1 _ (List.getElem_mem hi)).1

/-- Heuristic values vanish on terminal well-formed states. -/
theorem heuristic_terminal {s : JState} (hwf : WFState s)
    (hterm : selectablePairs s = []) (pick : List ℚ → ℕ) :
    astar_heuristicWith pick s = 0 := by
  rw [heuristic_as_range]
  refine Finset.sum_eq_zero fun i hi => ?_
  rw [Finset.mem_range] at hi
  have hcnt : countSelectableCol s i = 0 := by
    by_contra hne
    obtain ⟨e, hmem⟩ := countSelectableCol_pos_inv (s := s) (t := i) (by omega)
    rw [hterm] at hmem
    exact List.not_mem_nil _ hmem
  have htgt : s.Targets.getD i ⟨0, 0⟩ ∈ s.Targets := by
    rw [List.getD_eq_getElem _ _ hi]
    exact List.getElem_mem hi
  rcases (hwf.2.1 _ htgt).2 with h | h | h
  · exact contribution_zero_count pick s i _ hcnt (Or.inl h)
  · exact contribution_zero_count pick s i _ hcnt (Or.inr h)
  · exact contribution_sel_one pick s i _ h

/-- Contribution depends on the state only through the column data. -/
theorem contribution_congr (pick : List ℚ → ℕ) (s1 s2 : JState) (i : ℕ) (tgt : Target)
    (hc : countSelectableCol s1 i = countSelectableCol s2 i)
    (hcol : psuccessCol s1 i = psuccessCol s2 i) :
    targetContribution pick s1 i tgt = targetContribution pick s2 i tgt := by
  unfold targetContribution
  rw [hc, hcol]

/-- Contributions of targets other than the engaged one are unchanged by
a transition. -/
theorem contribution_other {s : JState} (a : ℕ × ℕ) (pick : List ℚ → ℕ) (i : ℕ)
    (hi : i ≠ a.2) :
    targetContribution pick (update_state a s).1 i
        ((update_state a s).1.Targets.getD i ⟨0, 0⟩) =
      targetContribution pick s i (s.Targets.getD i ⟨0, 0⟩) := by
  rw [update_target_miss s a i hi]
  exact contribution_congr pick _ s i _ (update_countSelectableCol s a i hi)
    (update_psuccessCol s a i)

/-- Key admissibility step: the claimed reward of an engagement plus the
engaged target's remaining contribution never exceeds the target's
contribution before the engagement. -/
theorem contribution_key {s : JState} {a : ℕ × ℕ} (hwf : WFState s)
    (ha : a ∈ selectablePairs s) (pick : List ℚ → ℕ) (hp : ValidPick pick) :
    (update_state a s).2.1 +
      targetContribution pick (update_state a s).1 a.2
        ((update_state a s).1.Targets.getD a.2 ⟨0, 0⟩) ≤
      targetContribution pick s a.2 (s.Targets.getD a.2 ⟨0, 0⟩) := by
  have hlt := selectable_target_lt hwf.1 ha
  obtain ⟨hv0, hsel01⟩ := selectable_target_facts hwf ha
  have hcnt : 1 ≤ countSelectableCol s a.2 := by
    have h2 : (a.1, a.2) ∈ selectablePairs s := by
      rcases a with ⟨e, t⟩
      exact ha
    exact countSelectableCol_pos h2
  have hcolne : psuccessCol s a.2 ≠ [] := by
    intro h0
    have hz : countSelectableCol s a.2 = 0 := by
      unfold countSelectableCol
      unfold psuccessCol at h0
      rw [List.map_eq_nil_iff] at h0
      rw [h0]
      rfl
    omega
  obtain ⟨hpk, hmax⟩ := hp _ hcolne
  have hphat : 0 ≤ (psuccessCol s a.2).getD (pick (psuccessCol s a.2)) 0 ∧
      (psuccessCol s a.2).getD (pick (psuccessCol s a.2)) 0 ≤ 1 :=
    psuccessCol_bounds hwf a.2 _ (getD_mem_of_lt _ _ hpk)
  have hpe : (s.opp a.1 a.2).psuccess ∈ psuccessCol s a.2 := by
    rcases a with ⟨e0, t0⟩
    rw [mem_selectablePairs] at ha
    obtain ⟨o, ho, -⟩ := ha
    unfold JState.oppQ at ho
    cases he : s.Opportunities[e0]? with
    | none =>
      rw [he, Option.none_bind] at ho
      exact Option.noConfusion ho
    | some row =>
      rw [he, Option.some_bind] at ho
      have hop : s.opp e0 t0 = o := by
        rw [opp_eq_oppQ]
        unfold JState.oppQ
        rw [he, Option.some_bind, ho, Option.getD_some]
      refine List.mem_iff_getElem?.mpr ⟨e0, ?_⟩
      unfold psuccessCol
      rw [List.getElem?_map, he, Option.map_some', List.getD_eq_getElem?_getD, ho,
        Option.getD_some, hop]
  have hpele := hmax _ hpe
  have hreward := update_reward s a
  have htgt2 := update_target_hit s a hlt
  have hcol2 := update_psuccessCol s a a.2
  set phat := (psuccessCol s a.2).getD (pick (psuccessCol s a.2)) 0 with hphatdef
  set pe := (s.opp a.1 a.2).psuccess with hpedef
  set v := (s.Targets.getD a.2 ⟨0, 0⟩).value with hvdef
  rcases hsel01 with hsel | hsel
  · rw [contribution_compute pick s a.2 _ hcnt (Or.inl hsel)]
    rw [hsel, if_pos rfl]
    rw [simulateMoves_eq]
    rcases Nat.eq_zero_or_pos (countSelectableCol (update_state a s).1 a.2) with hc0 | hc1
    · rw [contribution_zero_count pick _ a.2 _ hc0 (by
        rw [htgt2, hsel]
        exact Or.inr (by norm_num))]
      rw [hreward]
      have h1 : pe ≤ phat := hpele
      rw [← hvdef, ← hphatdef]
      have h2 : v * pe ≤ v * phat := mul_le_mul_of_nonneg_left h1 hv0
      have h3 : 0 ≤ v * phat * (1 - phat) :=
        mul_nonneg (mul_nonneg hv0 hphat.1) (by linarith [hphat.2])
      nlinarith [h2, h3]
    · rw [contribution_compute pick _ a.2 _ hc1 (by
        rw [htgt2, hsel]
        exact Or.inr (by norm_num))]
      rw [htgt2]
      dsimp only
      rw [hsel, if_neg (by norm_num : ¬(0 : ℚ) + 1 / 2 = 0), hcol2]
      rw [simulateMoves_eq, hreward]
      have h1 : pe ≤ phat := hpele
      rw [← hvdef, ← hphatdef]
      have h3 : 0 ≤ v * (phat - pe) * (1 - phat) :=
        mul_nonneg (mul_nonneg hv0 (by linarith)) (by linarith [hphat.2])
      nlinarith [h3]
  · rw [contribution_compute pick s a.2 _ hcnt (Or.inr hsel)]
    rw [hsel, if_neg (by norm_num : ¬(1 / 2 : ℚ) = 0)]
    rw [simulateMoves_eq]
    rw [contribution_sel_one pick _ a.2 _ (by
      rw [htgt2, hsel]
      norm_num)]
    rw [hreward]
    have h1 : pe ≤ phat := hpele
    rw [← hvdef, ← hphatdef]
    have h2 : v * pe ≤ v * phat := mul_le_mul_of_nonneg_left h1 hv0
    nlinarith [h2]

end JFA

namespace JFA

/-- Consistency: one claimed reward plus the heuristic of the successor
never exceeds the heuristic of the state. -/
theorem heuristic_consistent {s : JState} {a : ℕ × ℕ} (hwf : WFState s)
    (ha : a ∈ selectablePairs s) (pick : List ℚ → ℕ) (hp : ValidPick pick) :
    (update_state a s).2.1 + astar_heuristicWith pick (update_state a s).1 ≤
      astar_heuristicWith pick s := by
  have hlt := selectable_target_lt hwf.1 ha
  have hlen : (update_state a s).1.Targets.length = s.Targets.length := by
    rw [update_targets, List.length_set]
  rw [heuristic_as_range, heuristic_as_range, hlen]
  set f := fun i => targetContribution pick s i (s.Targets.getD i ⟨0, 0⟩) with hf
  set f' := fun i => targetContribution pick (update_state a s).1 i
    ((update_state a s).1.Targets.getD i ⟨0, 0⟩) with hf2
  have hsum : ∑ i ∈ Finset.range s.Targets.length, (f' i - f i) = f' a.2 - f a.2 := by
    refine Finset.sum_eq_single_of_mem a.2 (Finset.mem_range.mpr hlt) fun i _ hi => ?_
    rw [hf, hf2]
    dsimp only
    rw [contribution_other a pick i hi]
    ring
  have hdiff : ∑ i ∈ Finset.range s.Targets.length, f' i -
      ∑ i ∈ Finset.range s.Targets.length, f i = f' a.2 - f a.2 := by
    rw [← Finset.sum_sub_distrib, hsum]
  have hkey : (update_state a s).2.1 + f' a.2 ≤ f a.2 := contribution_key hwf ha pick hp
  linarith

/-- Admissibility: the heuristic never understates the optimal
achievable reward of a well-formed state. -/
theorem bestReward_le_heuristic {s : JState} (hwf : WFState s) (pick : List ℚ → ℕ)
    (hp : ValidPick pick) : bestReward s ≤ astar_heuristicWith pick s := by
  generalize hn : selCount s = n
  induction n using Nat.strong_induction_on generalizing s with
  | _ n ih =>
    by_cases hemp : selectablePairs s = []
    · rw [bestReward_terminal hemp]
      exact heuristic_nonneg hwf pick
    · obtain ⟨a, ha, heq⟩ := bestReward_choice hwf hemp
      have hlt : selCount (update_state a s).1 < n := hn ▸ selCount_update_lt ha
      have h1 := ih _ hlt (WF_update hwf ha) rfl
      have h2 := heuristic_consistent hwf ha pick hp
      rw [heq]
      linarith

end JFA

namespace JFA

/-- Consistency of a node's ancestor chain with the search from s0:
parent snapshots carry exact remaining value, every link was a
selectable action processed by the transition function, and the node's
own priority is either the queued form (corrected minus heuristic) or
the corrected form. -/
def NodeChain (h : JState → ℚ) (s0 : JState) : SNode → Prop
  | .root c => c.state = s0 ∧ c.g = sumValues s0 ∧ c.action = none ∧ c.reward = 0 ∧
      c.terminal = false
  | .child c p => NodeChain h s0 p ∧ p.g = sumValues p.state ∧
      ∃ a, c.action = some a ∧ a ∈ selectablePairs p.state ∧
        update_state a p.state = (c.state, c.reward, c.terminal) ∧
        (c.g = p.g - c.reward - h c.state ∨ c.g = p.g - c.reward)

/-- Priority discipline of frontier nodes: terminal children carry the
exact remaining value, non-terminal children carry remaining value minus
heuristic. -/
def FrontG (h : JState → ℚ) : SNode → Prop
  | .root _ => True
  | .child c _ => (c.terminal = true → c.g = sumValues c.state) ∧
      (c.terminal = false → c.g = sumValues c.state - h c.state)

/-- Search-loop invariant for AStar from initial state s0. -/
structure Inv (h : JState → ℚ) (s0 : JState) (σ : Sσ) : Prop where
  frontChain : ∀ n ∈ σ.frontier, NodeChain h s0 n
  frontG : ∀ n ∈ σ.frontier, FrontG h n
  explChain : ∀ n ∈ σ.explored, NodeChain h s0 n
  explG : ∀ n ∈ σ.explored, n.g = sumValues n.state
  explNT : ∀ c p, SNode.child c p ∈ σ.explored → c.terminal = false
  rootSolo : ∀ c, SNode.root c ∈ σ.frontier →
    σ.frontier = [SNode.root c] ∧ σ.explored = []
  closedSucc : ∀ n ∈ σ.explored, ∀ a ∈ selectablePairs n.state,
    ∃ m, (m ∈ σ.frontier ∨ m ∈ σ.explored) ∧ m.state = (update_state a n.state).1
  rootCover : ∃ m, (m ∈ σ.frontier ∨ m ∈ σ.explored) ∧ m.state = s0

/-- Valid paths extend by one action at the far end. -/
theorem PathTo_snoc {s s1 s2 : JState} {as : List (ℕ × ℕ)} {a : ℕ × ℕ} {r c : ℚ}
    {b : Bool} (hp : PathTo s as s1 c) (ha : a ∈ selectablePairs s1)
    (hu : update_state a s1 = (s2, r, b)) : PathTo s (as ++ [a]) s2 (c + r) := by
  induction hp with
  | nil s =>
    rw [List.nil_append, zero_add]
    have h2 := PathTo.cons ha hu (PathTo.nil s2)
    rw [add_zero] at h2
    exact h2
  | cons ha2 hu2 hrest ih =>
    rename_i s s1' sE a2 as2 r2 c2 b2
    rw [List.cons_append]
    have h2 := PathTo.cons ha2 hu2 (ih ha hu)
    have harith : r2 + (c2 + r) = r2 + c2 + r := by ring
    rw [harith] at h2
    exact h2

/-- A chain node's state is reached from s0 by its recorded solution,
claiming its accumulated path reward. -/
theorem NodeChain_path {h : JState → ℚ} {s0 : JState} :
    ∀ n : SNode, NodeChain h s0 n → PathTo s0 n.solution n.state n.pathReward
  | .root c, hc => by
    obtain ⟨hstate, -, haction, hreward, -⟩ := hc
    have hsol : (SNode.root c).solution = [] := by
      simp [SNode.solution, haction]
    rw [hsol]
    show PathTo s0 [] c.state c.reward
    rw [hstate, hreward]
    exact PathTo.nil s0
  | .child c p, hc => by
    obtain ⟨hp, -, a, haction, hmem, hupd, -⟩ := hc
    have hsol : (SNode.child c p).solution = p.solution ++ [a] := by
      simp [SNode.solution, haction]
    rw [hsol]
    show PathTo s0 (p.solution ++ [a]) c.state (p.pathReward + c.reward)
    exact PathTo_snoc (NodeChain_path p hp) hmem hupd

/-- Chain nodes carry well-formed states. -/
theorem NodeChain_WF {h : JState → ℚ} {s0 : JState} (hwf : WFState s0) :
    ∀ n : SNode, NodeChain h s0 n → WFState n.state
  | .root c, hc => by
    have hstate := hc.1
    show WFState c.state
    rw [hstate]
    exact hwf
  | .child c p, hc => by
    obtain ⟨hp, -, a, -, hmem, hupd, -⟩ := hc
    have hwfp : WFState p.state := NodeChain_WF hwf p hp
    have h2 := WF_update hwfp hmem
    show WFState c.state
    have hfst : (update_state a p.state).1 = c.state := by rw [hupd]
    rw [← hfst]
    exact h2

/-- Path sums: the remaining total value after a valid path is the
initial total minus the claimed reward. -/
theorem PathTo_sum {s : JState} {as : List (ℕ × ℕ)} {sE : JState} {c : ℚ}
    (hp : PathTo s as sE c) : WFState s → sumValues sE = sumValues s - c := by
  induction hp with
  | nil s => exact fun _ => by ring
  | cons ha hu hrest ih =>
    rename_i s s1 sE a as r c b
    intro hwf
    have hlt := selectable_target_lt hwf.1 ha
    have hsum := sumValues_update s a hlt
    have hfst : (update_state a s).1 = s1 := by rw [hu]
    have hr : (update_state a s).2.1 = r := by rw [hu]
    rw [hfst, hr] at hsum
    have hwf1 : WFState s1 := by
      have h2 := WF_update hwf ha
      rw [hfst] at h2
      exact h2
    rw [ih hwf1, hsum]
    ring

/-- Claimed rewards along valid paths are nonnegative. -/
theorem PathTo_nonneg {s : JState} {as : List (ℕ × ℕ)} {sE : JState} {c : ℚ}
    (hp : PathTo s as sE c) : WFState s → 0 ≤ c := by
  induction hp with
  | nil s => exact fun _ => le_refl 0
  | cons ha hu hrest ih =>
    rename_i s s1 sE a as r c b
    intro hwf
    have hr : 0 ≤ r := by
      have h2 := update_reward_nonneg hwf ha
      rw [hu] at h2
      exact h2
    have hwf1 : WFState s1 := by
      have h2 := WF_update hwf ha
      rw [hu] at h2
      exact h2
    have hc := ih hwf1
    linarith

/-- Terminal flags of chain children record terminality of their own
state. -/
theorem chain_terminal_flag {h : JState → ℚ} {s0 : JState} {c : NodeCore} {p : SNode}
    (hc : NodeChain h s0 (.child c p)) :
    c.terminal = decide (selectablePairs c.state = []) := by
  obtain ⟨-, -, a, -, -, hupd, -⟩ := hc
  have h1 : (update_state a p.state).2.2 = c.terminal := by rw [hupd]
  have h2 : (update_state a p.state).1 = c.state := by rw [hupd]
  rw [← h1, update_terminal, h2]

/-- Exact remaining value of an accepted or corrected child: parent's
remaining value minus the one-step reward is the child state's remaining
value. -/
theorem chain_child_sum {h : JState → ℚ} {s0 : JState} {c : NodeCore} {p : SNode}
    (hwf : WFState s0) (hc : NodeChain h s0 (.child c p)) :
    sumValues c.state = p.g - c.reward := by
  obtain ⟨hp, hpg, a, -, hmem, hupd, -⟩ := hc
  have hwfp : WFState p.state := NodeChain_WF hwf p hp
  have hlt := selectable_target_lt hwfp.1 hmem
  have hsum := sumValues_update p.state a hlt
  have hfst : (update_state a p.state).1 = c.state := by rw [hupd]
  have hr : (update_state a p.state).2.1 = c.reward := by rw [hupd]
  rw [hfst, hr] at hsum
  rw [hsum, hpg]

end JFA

namespace JFA

/-- State equality of the Node class is plain equality of the state
triple. -/
theorem stateEq_iff {s t : JState} : stateEq s t = true ↔ s = t := by
  unfold stateEq
  cases s
  cases t
  simp [and_assoc]

/-- Membership by state equality is existence of a node with that
state. -/
theorem stateMem_iff {s : JState} {l : List SNode} :
    stateMem s l = true ↔ ∃ m ∈ l, m.state = s := by
  unfold stateMem
  rw [List.any_eq_true]
  constructor
  · rintro ⟨m, hm, heq⟩
    exact ⟨m, hm, (stateEq_iff.mp heq).symm⟩
  · rintro ⟨m, hm, heq⟩
    exact ⟨m, hm, stateEq_iff.mpr heq.symm⟩

/-- Unfolding equation of popMin on a cons cell. -/
theorem popMin_cons (x : SNode) (xs : List SNode) :
    popMin (x :: xs) = match popMin xs with
      | none => some (x, [])
      | some (m, rest') => if x.g ≤ m.g then some (x, xs) else some (m, x :: rest') :=
  rfl

/-- Pop of a singleton-tailed cons when the tail is empty. -/
theorem popMin_cons_none {x : SNode} {xs : List SNode} (h : popMin xs = none) :
    popMin (x :: xs) = some (x, []) := by
  rw [popMin_cons, h]

/-- Pop keeps the head when it is at most the tail's minimum. -/
theorem popMin_cons_le {x : SNode} {xs : List SNode} {m : SNode} {rest' : List SNode}
    (h : popMin xs = some (m, rest')) (hle : x.g ≤ m.g) :
    popMin (x :: xs) = some (x, xs) := by
  rw [popMin_cons, h]
  show (if x.g ≤ m.g then some (x, xs) else some (m, x :: rest')) = some (x, xs)
  rw [if_pos hle]

/-- Pop takes the tail's minimum when the head is larger. -/
theorem popMin_cons_gt {x : SNode} {xs : List SNode} {m : SNode} {rest' : List SNode}
    (h : popMin xs = some (m, rest')) (hle : ¬x.g ≤ m.g) :
    popMin (x :: xs) = some (m, x :: rest') := by
  rw [popMin_cons, h]
  show (if x.g ≤ m.g then some (x, xs) else some (m, x :: rest')) = some (m, x :: rest')
  rw [if_neg hle]

/-- Pop of a singleton frontier. -/
theorem popMin_singleton (x : SNode) : popMin [x] = some (x, []) :=
  popMin_cons_none rfl

/-- An empty pop means an empty frontier. -/
theorem popMin_none : ∀ {l : List SNode}, popMin l = none → l = [] := by
  intro l hpop
  cases l with
  | nil => rfl
  | cons x xs =>
    exfalso
    cases h3 : popMin xs with
    | none =>
      rw [popMin_cons_none h3] at hpop
      exact Option.noConfusion hpop
    | some pr =>
      obtain ⟨m2, rest2⟩ := pr
      by_cases hle : x.g ≤ m2.g
      · rw [popMin_cons_le h3 hle] at hpop
        exact Option.noConfusion hpop
      · rw [popMin_cons_gt h3 hle] at hpop
        exact Option.noConfusion hpop

/-- Popped node of a nonempty frontier: permutation with the rest. -/
theorem popMin_perm : ∀ {l : List SNode} {n : SNode} {rest : List SNode},
    popMin l = some (n, rest) → l.Perm (n :: rest) := by
  intro l
  induction l with
  | nil =>
    intro n rest hpop
    exact Option.noConfusion hpop
  | cons x xs ih =>
    intro n rest hpop
    cases h3 : popMin xs with
    | none =>
      have hx := popMin_none h3
      rw [popMin_cons_none h3] at hpop
      obtain ⟨h1, h2⟩ := Prod.mk.inj (Option.some.inj hpop)
      rw [← h1, ← h2, hx]
    | some pr =>
      obtain ⟨m2, rest2⟩ := pr
      by_cases hle : x.g ≤ m2.g
      · rw [popMin_cons_le h3 hle] at hpop
        obtain ⟨h1, h2⟩ := Prod.mk.inj (Option.some.inj hpop)
        rw [← h1, ← h2]
      · rw [popMin_cons_gt h3 hle] at hpop
        obtain ⟨h1, h2⟩ := Prod.mk.inj (Option.some.inj hpop)
        rw [← h1, ← h2]
        exact List.Perm.trans (List.Perm.cons x (ih h3)) (List.Perm.swap m2 x rest2)

/-- Popped node is a member of the frontier. -/
theorem popMin_mem {l : List SNode} {n : SNode} {rest : List SNode}
    (hpop : popMin l = some (n, rest)) : n ∈ l :=
  (popMin_perm hpop).symm.subset (List.mem_cons_self n rest)

/-- Members of the rest after a pop are members of the frontier. -/
theorem popMin_rest_mem {l : List SNode} {n : SNode} {rest : List SNode}
    (hpop : popMin l = some (n, rest)) {m : SNode} (hm : m ∈ rest) : m ∈ l :=
  (popMin_perm hpop).symm.subset (List.mem_cons_of_mem n hm)

/-- Popped node carries a minimal priority value. -/
theorem popMin_min : ∀ {l : List SNode} {n : SNode} {rest : List SNode},
    popMin l = some (n, rest) → ∀ m ∈ l, n.g ≤ m.g := by
  intro l
  induction l with
  | nil =>
    intro n rest hpop
    exact Option.noConfusion hpop
  | cons x xs ih =>
    intro n rest hpop m hm
    cases h3 : popMin xs with
    | none =>
      have hx := popMin_none h3
      rw [popMin_cons_none h3] at hpop
      obtain ⟨h1, -⟩ := Prod.mk.inj (Option.some.inj hpop)
      rcases List.mem_cons.mp hm with h | h
      · rw [← h1, h]
      · rw [hx] at h
        exact absurd h (List.not_mem_nil m)
    | some pr =>
      obtain ⟨m2, rest2⟩ := pr
      by_cases hle : x.g ≤ m2.g
      · rw [popMin_cons_le h3 hle] at hpop
        obtain ⟨h1, -⟩ := Prod.mk.inj (Option.some.inj hpop)
        rcases List.mem_cons.mp hm with h | h
        · rw [← h1, h]
        · rw [← h1]
          exact le_trans hle (ih h3 m h)
      · push_neg at hle
        rw [popMin_cons_gt h3 (not_le.mpr hle)] at hpop
        obtain ⟨h1, -⟩ := Prod.mk.inj (Option.some.inj hpop)
        rcases List.mem_cons.mp hm with h | h
        · rw [← h1, h]
          exact hle.le
        · rw [← h1]
          exact ih h3 m h

end JFA

namespace JFA

/-- The expansion fold only appends children to the frontier it is
given. -/
theorem expFold_ext (h : JState → ℚ) (node : SNode) (explored : List SNode) :
    ∀ (as : List (ℕ × ℕ)) (acc : List SNode × ℕ × ℕ),
      ∃ ext, (as.foldl (fun acc a => pushChild explored acc (childNode h node a)) acc).1 =
        acc.1 ++ ext ∧ ∀ c ∈ ext, ∃ a ∈ as, c = childNode h node a := by
  intro as
  induction as with
  | nil =>
    intro acc
    exact ⟨[], by simp, fun c hc => absurd hc (List.not_mem_nil c)⟩
  | cons a0 as ih =>
    intro acc
    rw [List.foldl_cons]
    obtain ⟨ext, heq, hmem⟩ := ih (pushChild explored acc (childNode h node a0))
    by_cases hc : stateMem (childNode h node a0).state explored = false ∧
        stateMem (childNode h node a0).state acc.1 = false
    · have hpc : pushChild explored acc (childNode h node a0) =
          (acc.1 ++ [childNode h node a0], acc.2.1 + 1, acc.2.2) := by
        unfold pushChild
        rw [if_pos hc]
      refine ⟨childNode h node a0 :: ext, ?_, ?_⟩
      · rw [heq, hpc]
        simp
      · intro c hcm
        rcases List.mem_cons.mp hcm with h2 | h2
        · exact ⟨a0, List.mem_cons_self a0 as, h2⟩
        · obtain ⟨a, ha, hca⟩ := hmem c h2
          exact ⟨a, List.mem_cons_of_mem a0 ha, hca⟩
    · have hpc : pushChild explored acc (childNode h node a0) =
          (acc.1, acc.2.1, acc.2.2 + 1) := by
        unfold pushChild
        rw [if_neg hc]
      refine ⟨ext, ?_, ?_⟩
      · rw [heq, hpc]
      · intro c hcm
        obtain ⟨a, ha, hca⟩ := hmem c hcm
        exact ⟨a, List.mem_cons_of_mem a0 ha, hca⟩

/-- Frontier members survive the expansion fold. -/
theorem expFold_mono (h : JState → ℚ) (node : SNode) (explored : List SNode)
    (as : List (ℕ × ℕ)) (acc : List SNode × ℕ × ℕ) {m : SNode} (hm : m ∈ acc.1) :
    m ∈ (as.foldl (fun acc a => pushChild explored acc (childNode h node a)) acc).1 := by
  obtain ⟨ext, heq, -⟩ := expFold_ext h node explored as acc
  rw [heq]
  exact List.mem_append_left ext hm

/-- Every generated child state is covered by the explored list or the
final frontier of the expansion fold. -/
theorem expFold_cover (h : JState → ℚ) (node : SNode) (explored : List SNode) :
    ∀ (as : List (ℕ × ℕ)) (acc : List SNode × ℕ × ℕ), ∀ a ∈ as,
      ∃ m, (m ∈ explored ∨
          m ∈ (as.foldl (fun acc a => pushChild explored acc (childNode h node a)) acc).1) ∧
        m.state = (childNode h node a).state := by
  intro as
  induction as with
  | nil =>
    intro acc a ha
    exact absurd ha (List.not_mem_nil a)
  | cons a0 as ih =>
    intro acc a ha
    rw [List.foldl_cons]
    rcases List.mem_cons.mp ha with h2 | h2
    · subst h2
      by_cases hc : stateMem (childNode h node a).state explored = false ∧
          stateMem (childNode h node a).state acc.1 = false
      · have hpc : pushChild explored acc (childNode h node a) =
            (acc.1 ++ [childNode h node a], acc.2.1 + 1, acc.2.2) := by
          unfold pushChild
          rw [if_pos hc]
        refine ⟨childNode h node a, Or.inr ?_, rfl⟩
        refine expFold_mono h node explored as _ ?_
        rw [hpc]
        exact List.mem_append_right acc.1 (List.mem_cons_self _ [])
      · rcases Decidable.not_and_iff_or_not.mp hc with h3 | h3
        · have h4 : stateMem (childNode h node a).state explored = true :=
            eq_true_of_ne_false h3
          obtain ⟨m, hmem, hst⟩ := stateMem_iff.mp h4
          exact ⟨m, Or.inl hmem, hst⟩
        · have h4 : stateMem (childNode h node a).state acc.1 = true :=
            eq_true_of_ne_false h3
          obtain ⟨m, hmem, hst⟩ := stateMem_iff.mp h4
          refine ⟨m, Or.inr ?_, hst⟩
          refine expFold_mono h node explored as _ ?_
          have hpfx : acc.1 ⊆ (pushChild explored acc (childNode h node a)).1 := by
            unfold pushChild
            split
            · intro x hx
              exact List.mem_append_left _ hx
            · intro x hx
              exact hx
          exact hpfx hmem
    · exact ih (pushChild explored acc (childNode h node a0)) a h2

end JFA

namespace JFA

/-- Invariant preservation through the expansion of a popped, corrected
node. -/
theorem expand_inv {h : JState → ℚ} {s0 : JState} {σ σ' : Sσ} (hwf : WFState s0)
    (hterm0 : ∀ s, WFState s → selectablePairs s = [] → h s = 0)
    (hI : Inv h s0 σ) (node node' : SNode) (rest : List SNode)
    (hpop : popMin σ.frontier = some (node, rest))
    (hchain : NodeChain h s0 node')
    (hstate : node'.state = node.state)
    (hgex : node'.g = sumValues node'.state)
    (hnt : ∀ c p, node' = SNode.child c p → c.terminal = false)
    (hstep : expandNode h σ node' rest = .cont σ') : Inv h s0 σ' := by
  unfold expandNode at hstep
  dsimp only at hstep
  have hσ := StepRes.cont.inj hstep
  set explored2 := σ.explored ++ [node'] with hexp2
  set res := (selectablePairs node'.state).foldl
    (fun acc a => pushChild explored2 acc (childNode h node' a))
    (rest, σ.branchFactor, σ.duplicates) with hres
  have hfront : σ'.frontier = res.1 := by rw [← hσ]
  have hexp : σ'.explored = explored2 := by rw [← hσ]
  obtain ⟨ext, heqext, hmemext⟩ := expFold_ext h node' explored2
    (selectablePairs node'.state) (rest, σ.branchFactor, σ.duplicates)
  have hwfn : WFState node'.state := NodeChain_WF hwf node' hchain
  have hfr2 : σ'.frontier = rest ++ ext := by
    rw [hfront, hres]
    exact heqext
  have hrestmem : ∀ m ∈ rest, m ∈ σ.frontier := fun m hm => popMin_rest_mem hpop hm
  have hchild : ∀ c ∈ ext, ∃ a ∈ selectablePairs node'.state, c = childNode h node' a :=
    hmemext
  have hchainChild : ∀ a ∈ selectablePairs node'.state,
      NodeChain h s0 (childNode h node' a) := by
    intro a ha
    unfold childNode NodeChain
    exact ⟨hchain, hgex, a, rfl, ha, rfl, Or.inl rfl⟩
  constructor
  · intro n hn
    rw [hfr2] at hn
    rcases List.mem_append.mp hn with hn | hn
    · exact hI.frontChain n (hrestmem n hn)
    · obtain ⟨a, ha, hcn⟩ := hchild n hn
      rw [hcn]
      exact hchainChild a ha
  · intro n hn
    rw [hfr2] at hn
    rcases List.mem_append.mp hn with hn | hn
    · exact hI.frontG n (hrestmem n hn)
    · obtain ⟨a, ha, hcn⟩ := hchild n hn
      rw [hcn]
      unfold childNode FrontG
      dsimp only
      have hlt := selectable_target_lt hwfn.1 ha
      have hsum := sumValues_update node'.state a hlt
      constructor
      · intro hterm
        rw [update_terminal] at hterm
        have hpairs := of_decide_eq_true hterm
        have hz : h (update_state a node'.state).1 = 0 :=
          hterm0 _ (WF_update hwfn ha) hpairs
        rw [hz, hsum, hgex]
        ring
      · intro hterm
        rw [hsum, hgex]
  · intro n hn
    rw [hexp] at hn
    rcases List.mem_append.mp hn with hn | hn
    · exact hI.explChain n hn
    · rw [List.mem_singleton.mp hn]
      exact hchain
  · intro n hn
    rw [hexp] at hn
    rcases List.mem_append.mp hn with hn | hn
    · exact hI.explG n hn
    · rw [List.mem_singleton.mp hn]
      exact hgex
  · intro c p hn
    rw [hexp] at hn
    rcases List.mem_append.mp hn with hn | hn
    · exact hI.explNT c p hn
    · exact hnt c p (List.mem_singleton.mp hn).symm
  · intro c hc
    rw [hfr2] at hc
    have hcr : SNode.root c ∈ rest := by
      rcases List.mem_append.mp hc with h2 | h2
      · exact h2
      · obtain ⟨a, -, hcn⟩ := hchild _ h2
        exact absurd hcn (by unfold childNode; intro h3; exact SNode.noConfusion h3)
    obtain ⟨hfr, -⟩ := hI.rootSolo c (hrestmem _ hcr)
    rw [hfr] at hpop
    have hpop2 : popMin [SNode.root c] = some (SNode.root c, []) :=
      popMin_cons_none rfl
    rw [hpop2] at hpop
    obtain ⟨-, h2⟩ := Prod.mk.inj (Option.some.inj hpop)
    rw [← h2] at hcr
    exact absurd hcr (List.not_mem_nil _)
  · intro n hn a ha
    rw [hexp] at hn
    rcases List.mem_append.mp hn with hn | hn
    · obtain ⟨m, hm, hms⟩ := hI.closedSucc n hn a ha
      rcases hm with hm | hm
      · rcases List.mem_cons.mp ((List.Perm.mem_iff (popMin_perm hpop)).mp hm) with hm2 | hm2
        · refine ⟨node', Or.inr ?_, ?_⟩
          · rw [hexp]
            exact List.mem_append_right _ (List.mem_singleton_self node')
          · rw [hstate, ← hm2]
            exact hms
        · refine ⟨m, Or.inl ?_, hms⟩
          rw [hfr2]
          exact List.mem_append_left _ hm2
      · refine ⟨m, Or.inr ?_, hms⟩
        rw [hexp]
        exact List.mem_append_left _ hm
    · rw [List.mem_singleton.mp hn]
      rw [List.mem_singleton.mp hn] at ha
      obtain ⟨m, hm, hms⟩ := expFold_cover h node' explored2 (selectablePairs node'.state)
        (rest, σ.branchFactor, σ.duplicates) a ha
      refine ⟨m, ?_, ?_⟩
      · rcases hm with hm | hm
        · right
          rw [hexp]
          exact hm
        · left
          rw [hfront, hres]
          exact hm
      · exact hms
  · obtain ⟨m, hm, hms⟩ := hI.rootCover
    rcases hm with hm | hm
    · rcases List.mem_cons.mp ((List.Perm.mem_iff (popMin_perm hpop)).mp hm) with hm2 | hm2
      · refine ⟨node', Or.inr ?_, ?_⟩
        · rw [hexp]
          exact List.mem_append_right _ (List.mem_singleton_self node')
        · rw [hstate, ← hm2]
          exact hms
      · refine ⟨m, Or.inl ?_, hms⟩
        rw [hfr2]
        exact List.mem_append_left _ hm2
    · refine ⟨m, Or.inr ?_, hms⟩
      rw [hexp]
      exact List.mem_append_left _ hm

end JFA

namespace JFA

/-- The invariant holds for the initial search state of AStar. -/
theorem Inv_init (h : JState → ℚ) (s0 : JState) :
    Inv h s0 ⟨[initNode s0], [], 0, 0, 0⟩ := by
  constructor
  · intro n hn
    rw [List.mem_singleton.mp hn]
    unfold initNode NodeChain
    exact ⟨rfl, rfl, rfl, rfl, rfl⟩
  · intro n hn
    rw [List.mem_singleton.mp hn]
    unfold initNode FrontG
    trivial
  · intro n hn
    exact absurd hn (List.not_mem_nil n)
  · intro n hn
    exact absurd hn (List.not_mem_nil n)
  · intro c p hn
    exact absurd hn (List.not_mem_nil _)
  · intro c hc
    constructor
    · rw [List.mem_singleton.mp hc]
    · rfl
  · intro n hn
    exact absurd hn (List.not_mem_nil n)
  · exact ⟨initNode s0, Or.inl (List.mem_singleton_self _), rfl⟩

/-- One continuing loop iteration preserves the invariant. -/
theorem Inv_step {h : JState → ℚ} {s0 : JState} {σ σ' : Sσ} (hwf : WFState s0)
    (hterm0 : ∀ s, WFState s → selectablePairs s = [] → h s = 0)
    (hI : Inv h s0 σ) (hstep : step h σ = .cont σ') : Inv h s0 σ' := by
  unfold step at hstep
  cases hpop : popMin σ.frontier with
  | none =>
    rw [hpop] at hstep
    exact absurd hstep (by simp)
  | some pr =>
    obtain ⟨node, rest⟩ := pr
    rw [hpop] at hstep
    dsimp only at hstep
    have hmemN : node ∈ σ.frontier := popMin_mem hpop
    by_cases hstale : stateMem node.state σ.explored = true
    · rw [if_pos hstale] at hstep
      have hσ := (StepRes.cont.inj hstep).symm
      obtain ⟨m0, hm0, hm0s⟩ := stateMem_iff.mp hstale
      have htrans : ∀ s', (∃ m, (m ∈ σ.frontier ∨ m ∈ σ.explored) ∧ m.state = s') →
          ∃ m, (m ∈ rest ∨ m ∈ σ.explored) ∧ m.state = s' := by
        rintro s' ⟨m, hm | hm, hms⟩
        · rcases List.mem_cons.mp ((List.Perm.mem_iff (popMin_perm hpop)).mp hm)
            with hm2 | hm2
          · refine ⟨m0, Or.inr hm0, ?_⟩
            rw [hm0s, ← hm2]
            exact hms
          · exact ⟨m, Or.inl hm2, hms⟩
        · exact ⟨m, Or.inr hm, hms⟩
      rw [hσ]
      constructor
      · intro n hn
        exact hI.frontChain n (popMin_rest_mem hpop hn)
      · intro n hn
        exact hI.frontG n (popMin_rest_mem hpop hn)
      · exact hI.explChain
      · exact hI.explG
      · exact hI.explNT
      · intro c hc
        obtain ⟨hfr, -⟩ := hI.rootSolo c (popMin_rest_mem hpop hc)
        rw [hfr] at hpop
        rw [popMin_singleton] at hpop
        obtain ⟨-, h2⟩ := Prod.mk.inj (Option.some.inj hpop)
        rw [← h2] at hc
        exact absurd hc (List.not_mem_nil _)
      · intro n hn a ha
        exact htrans _ (hI.closedSucc n hn a ha)
      · exact htrans _ hI.rootCover
    · rw [if_neg hstale] at hstep
      cases node with
      | child c p =>
        have hchainN : NodeChain h s0 (SNode.child c p) := hI.frontChain _ hmemN
        obtain ⟨hchainP, hpg, a, haction, hamem, hupd, hgopt⟩ := hchainN
        have hchainN2 : NodeChain h s0 (SNode.child c p) :=
          ⟨hchainP, hpg, a, haction, hamem, hupd, hgopt⟩
        by_cases hterm : c.terminal = true
        · unfold stepFresh at hstep
          dsimp only at hstep
          rw [if_pos hterm] at hstep
          by_cases hg : c.g = p.g - c.reward
          · rw [if_pos hg] at hstep
            exact absurd hstep (by simp)
          · rw [if_neg hg] at hstep
            have hσ := (StepRes.cont.inj hstep).symm
            set n2 : SNode :=
              SNode.child ⟨p.g - c.reward, c.action, c.state, c.reward, c.terminal⟩ p
              with hn2
            have hchainN3 : NodeChain h s0 n2 := by
              rw [hn2]
              unfold NodeChain
              exact ⟨hchainP, hpg, a, haction, hamem, hupd, Or.inr rfl⟩
            have hsum2 : sumValues c.state = p.g - c.reward :=
              chain_child_sum hwf hchainN2
            rw [hσ]
            constructor
            · intro n hn
              rcases List.mem_append.mp hn with hn | hn
              · exact hI.frontChain n (popMin_rest_mem hpop hn)
              · rw [List.mem_singleton.mp hn]
                exact hchainN3
            · intro n hn
              rcases List.mem_append.mp hn with hn | hn
              · exact hI.frontG n (popMin_rest_mem hpop hn)
              · rw [List.mem_singleton.mp hn, hn2]
                unfold FrontG
                dsimp only
                constructor
                · intro h2
                  exact hsum2.symm
                · intro hterm2
                  rw [hterm2] at hterm
                  exact absurd hterm (by simp)
            · exact hI.explChain
            · exact hI.explG
            · exact hI.explNT
            · intro c2 hc2
              have hcr : SNode.root c2 ∈ rest := by
                rcases List.mem_append.mp hc2 with h2 | h2
                · exact h2
                · exfalso
                  have h4 : SNode.root c2 = n2 := List.mem_singleton.mp h2
                  rw [hn2] at h4
                  exact SNode.noConfusion h4
              obtain ⟨hfr, -⟩ := hI.rootSolo c2 (popMin_rest_mem hpop hcr)
              rw [hfr] at hpop
              rw [popMin_singleton] at hpop
              obtain ⟨h1, -⟩ := Prod.mk.inj (Option.some.inj hpop)
              exact SNode.noConfusion h1
            · intro n hn a2 ha2
              obtain ⟨m, hm, hms⟩ := hI.closedSucc n hn a2 ha2
              rcases hm with hm | hm
              · rcases List.mem_cons.mp ((List.Perm.mem_iff (popMin_perm hpop)).mp hm)
                  with hm2 | hm2
                · refine ⟨n2, Or.inl ?_, ?_⟩
                  · exact List.mem_append_right _ (List.mem_singleton_self n2)
                  · rw [hn2]
                    show c.state = _
                    have hcs : m.state = c.state := by
                      rw [hm2]
                      rfl
                    rw [← hcs]
                    exact hms
                · exact ⟨m, Or.inl (List.mem_append_left _ hm2), hms⟩
              · exact ⟨m, Or.inr hm, hms⟩
            · obtain ⟨m, hm, hms⟩ := hI.rootCover
              rcases hm with hm | hm
              · rcases List.mem_cons.mp ((List.Perm.mem_iff (popMin_perm hpop)).mp hm)
                  with hm2 | hm2
                · refine ⟨n2, Or.inl ?_, ?_⟩
                  · exact List.mem_append_right _ (List.mem_singleton_self n2)
                  · rw [hn2]
                    show c.state = _
                    have hcs : m.state = c.state := by
                      rw [hm2]
                      rfl
                    rw [← hcs]
                    exact hms
                · exact ⟨m, Or.inl (List.mem_append_left _ hm2), hms⟩
              · exact ⟨m, Or.inr hm, hms⟩
        · unfold stepFresh at hstep
          dsimp only at hstep
          rw [if_neg hterm] at hstep
          refine expand_inv hwf hterm0 hI (SNode.child c p)
            (SNode.child ⟨p.g - c.reward, c.action, c.state, c.reward, c.terminal⟩ p)
            rest hpop ?_ rfl ?_ ?_ hstep
          · unfold NodeChain
            exact ⟨hchainP, hpg, a, haction, hamem, hupd, Or.inr rfl⟩
          · exact (chain_child_sum hwf hchainN2).symm
          · intro c2 p2 heq
            obtain ⟨h1, -⟩ := SNode.child.inj heq
            rw [← h1]
            dsimp only
            exact eq_false_of_ne_true hterm
      | root c =>
        have hchainN : NodeChain h s0 (SNode.root c) := hI.frontChain _ hmemN
        obtain ⟨hcs, hcg, -, -, -⟩ := hchainN
        have hchainN2 : NodeChain h s0 (SNode.root c) := hI.frontChain _ hmemN
        unfold stepFresh at hstep
        dsimp only at hstep
        refine expand_inv hwf hterm0 hI (SNode.root c) (SNode.root c) rest hpop
          hchainN2 rfl ?_ ?_ hstep
        · show c.g = sumValues c.state
          rw [hcs, hcg]
        · intro c2 p2 heq
          exact SNode.noConfusion heq

end JFA

namespace JFA

/-- Walking a terminal-ending valid path from a covered state: unless
the root is still queued, or the terminal end is covered by the explored
root (which forces the initial state itself to be terminal), some
frontier node's priority is at most the covered state's remaining value
minus the path's total reward. -/
theorem cover_walk {h : JState → ℚ} {s0 : JState} {σ : Sσ} (hI : Inv h s0 σ)
    (hadm : ∀ s, WFState s → bestReward s ≤ h s) :
    ∀ {s : JState} {as : List (ℕ × ℕ)} {sE : JState} {R : ℚ},
      PathTo s as sE R → WFState s → selectablePairs sE = [] →
      (∃ n, (n ∈ σ.frontier ∨ n ∈ σ.explored) ∧ n.state = s) →
      (∃ c, SNode.root c ∈ σ.frontier) ∨ selectablePairs s0 = [] ∨
        ∃ m ∈ σ.frontier, m.g ≤ sumValues s - R := by
  intro s as sE R hp
  induction hp with
  | nil s =>
    intro hwf hterm hcov
    obtain ⟨n, hn | hn, hns⟩ := hcov
    · cases n with
      | root c => exact Or.inl ⟨c, hn⟩
      | child c p =>
        have hchain : NodeChain h s0 (SNode.child c p) := hI.frontChain _ hn
        have hcs : c.state = s := hns
        have hflag : c.terminal = true := by
          rw [chain_terminal_flag hchain, hcs, hterm]
          simp
        obtain ⟨hG1, -⟩ := hI.frontG _ hn
        have hg1 : c.g = sumValues s := by
          rw [hG1 hflag, hcs]
        refine Or.inr (Or.inr ⟨SNode.child c p, hn, ?_⟩)
        show c.g ≤ sumValues s - 0
        rw [hg1]
        linarith
    · cases n with
      | root c =>
        have hchain : NodeChain h s0 (SNode.root c) := hI.explChain _ hn
        have hcs : c.state = s := hns
        have hs0 : c.state = s0 := hchain.1
        refine Or.inr (Or.inl ?_)
        rw [hs0.symm.trans hcs]
        exact hterm
      | child c p =>
        have hchain : NodeChain h s0 (SNode.child c p) := hI.explChain _ hn
        have hcs : c.state = s := hns
        have hflag : c.terminal = true := by
          rw [chain_terminal_flag hchain, hcs, hterm]
          simp
        have hnt := hI.explNT c p hn
        rw [hnt] at hflag
        exact Bool.noConfusion hflag
  | cons ha hu hrest ih =>
    rename_i s s1 sE a as r R b
    intro hwf hterm hcov
    obtain ⟨n, hn | hn, hns⟩ := hcov
    · cases n with
      | root c => exact Or.inl ⟨c, hn⟩
      | child c p =>
        have hchain : NodeChain h s0 (SNode.child c p) := hI.frontChain _ hn
        have hcs : c.state = s := hns
        have hne : selectablePairs s ≠ [] := by
          intro hh
          rw [hh] at ha
          exact List.not_mem_nil a ha
        have hflag : c.terminal = false := by
          rw [chain_terminal_flag hchain, hcs]
          simp [hne]
        obtain ⟨-, hG2⟩ := hI.frontG _ hn
        have hg2 : c.g = sumValues s - h s := by
          rw [hG2 hflag, hcs]
        have hfull : PathTo s (a :: as) sE (r + R) := PathTo.cons ha hu hrest
        have hub : r + R ≤ bestReward s := PathTo_le_bestReward hfull hwf
        have hbh : bestReward s ≤ h s := hadm s hwf
        refine Or.inr (Or.inr ⟨SNode.child c p, hn, ?_⟩)
        show c.g ≤ sumValues s - (r + R)
        rw [hg2]
        linarith
    · have hamem : a ∈ selectablePairs n.state := by
        rw [hns]
        exact ha
      obtain ⟨m, hm, hms⟩ := hI.closedSucc n hn a hamem
      rw [hns, hu] at hms
      have hms1 : m.state = s1 := hms
      have hwf1 : WFState s1 := by
        have h2 := WF_update hwf ha
        rw [hu] at h2
        exact h2
      have hlt := selectable_target_lt hwf.1 ha
      have hsv := sumValues_update s a hlt
      rw [hu] at hsv
      have hsum : sumValues s1 = sumValues s - r := hsv
      rcases ih hwf1 hterm ⟨m, hm, hms1⟩ with h1 | h1 | ⟨m2, hm2, hg2⟩
      · exact Or.inl h1
      · exact Or.inr (Or.inl h1)
      · refine Or.inr (Or.inr ⟨m2, hm2, ?_⟩)
        rw [hsum] at hg2
        linarith

end JFA

namespace JFA

/-- A loop iteration that accepts under the invariant returns the
remaining value of the optimum: total initial value minus the optimal
achievable reward. -/
theorem step_accept {h : JState → ℚ} {s0 : JState} {σ : Sσ}
    {sol : List (ℕ × ℕ)} {g : ℚ} {e b : ℕ} (hwf : WFState s0)
    (hadm : ∀ s, WFState s → bestReward s ≤ h s) (hI : Inv h s0 σ)
    (hstep : step h σ = .done (.success sol g e b)) :
    g = sumValues s0 - bestReward s0 := by
  unfold step at hstep
  cases hpop : popMin σ.frontier with
  | none =>
    rw [hpop] at hstep
    dsimp only at hstep
    exact absurd hstep (by simp)
  | some pr =>
    obtain ⟨node, rest⟩ := pr
    rw [hpop] at hstep
    dsimp only at hstep
    by_cases hstale : stateMem node.state σ.explored = true
    · rw [if_pos hstale] at hstep
      exact absurd hstep (by simp)
    · rw [if_neg hstale] at hstep
      cases node with
      | root c =>
        unfold stepFresh expandNode at hstep
        dsimp only at hstep
        exact absurd hstep (by simp)
      | child c p =>
        unfold stepFresh at hstep
        dsimp only at hstep
        by_cases hterm : c.terminal = true
        · rw [if_pos hterm] at hstep
          by_cases hg : c.g = p.g - c.reward
          · rw [if_pos hg] at hstep
            have hinj := StepRes.done.inj hstep
            obtain ⟨hsol, hgg, -, -⟩ := AResult.success.inj hinj
            have hmemN : SNode.child c p ∈ σ.frontier := popMin_mem hpop
            have hchain : NodeChain h s0 (SNode.child c p) := hI.frontChain _ hmemN
            have hsum : sumValues c.state = p.g - c.reward :=
              chain_child_sum hwf hchain
            have hpath : PathTo s0 (SNode.child c p).solution c.state
                (SNode.child c p).pathReward := NodeChain_path _ hchain
            have hvsum : sumValues c.state =
                sumValues s0 - (SNode.child c p).pathReward := PathTo_sum hpath hwf
            have hgv : g = sumValues s0 - (SNode.child c p).pathReward := by
              rw [← hgg, hg, ← hsum, hvsum]
            have hub : (SNode.child c p).pathReward ≤ bestReward s0 :=
              PathTo_le_bestReward hpath hwf
            obtain ⟨bs, bE, hbp, hbterm⟩ := bestReward_attained s0 hwf
            rcases cover_walk hI hadm hbp hwf hbterm hI.rootCover with
              hroot | hs0t | ⟨m, hm, hmg⟩
            · obtain ⟨c2, hc2⟩ := hroot
              obtain ⟨hfr, -⟩ := hI.rootSolo c2 hc2
              rw [hfr, popMin_singleton] at hpop
              obtain ⟨h1, -⟩ := Prod.mk.inj (Option.some.inj hpop)
              exact SNode.noConfusion h1
            · have hb0 : bestReward s0 = 0 := bestReward_terminal hs0t
              have hnn : 0 ≤ (SNode.child c p).pathReward := PathTo_nonneg hpath hwf
              rw [hgv, hb0]
              rw [hb0] at hub
              have hz : (SNode.child c p).pathReward = 0 := le_antisymm hub hnn
              rw [hz]
            · have hmin : c.g ≤ m.g := popMin_min hpop m hm
              have hcgg : c.g = g := hgg
              linarith
          · rw [if_neg hg] at hstep
            exact absurd hstep (by simp)
        · rw [if_neg hterm] at hstep
          unfold expandNode at hstep
          dsimp only at hstep
          exact absurd hstep (by simp)

/-- Running the loop to an accepted result from an invariant-satisfying
search state yields the optimum's remaining value. -/
theorem runAStar_opt {h : JState → ℚ} {s0 : JState} (hwf : WFState s0)
    (hterm0 : ∀ s, WFState s → selectablePairs s = [] → h s = 0)
    (hadm : ∀ s, WFState s → bestReward s ≤ h s) :
    ∀ (fuel : ℕ) (σ : Sσ), Inv h s0 σ →
      ∀ (sol : List (ℕ × ℕ)) (g : ℚ) (e b : ℕ),
        runAStar h fuel σ = some (.success sol g e b) →
        g = sumValues s0 - bestReward s0 := by
  intro fuel
  induction fuel with
  | zero =>
    intro σ hI sol g e b hrun
    exact absurd hrun (by simp [runAStar])
  | succ fuel ih =>
    intro σ hI sol g e b hrun
    rw [runAStar] at hrun
    cases hstep : step h σ with
    | done r =>
      rw [hstep] at hrun
      dsimp only at hrun
      have hr := Option.some.inj hrun
      rw [hr] at hstep
      exact step_accept hwf hadm hI hstep
    | cont σ2 =>
      rw [hstep] at hrun
      dsimp only at hrun
      exact ih σ2 (Inv_step hwf hterm0 hI hstep) sol g e b hrun

end JFA

namespace JFA

/-- C1: whenever AStar under astar_heuristic accepts a terminal node on
a well-formed problem instance, the priority value returned with the
solution equals the total initial target value minus the optimal
(maximum) achievable reward over all valid action sequences. -/
theorem AStar_optimal (s0 : JState) (fuel : ℕ) (sol : List (ℕ × ℕ)) (g : ℚ)
    (e b : ℕ) (hwf : WFState s0)
    (hrun : AStar astar_heuristic fuel s0 = some (.success sol g e b)) :
    g = sumValues s0 - bestReward s0 :=
  runAStar_opt hwf
    (fun _ hw hterm => heuristic_terminal hw hterm argmaxIdx)
    (fun _ hw => bestReward_le_heuristic hw argmaxIdx argmaxIdx_valid)
    fuel ⟨[initNode s0], [], 0, 0, 0⟩ (Inv_init astar_heuristic s0) sol g e b hrun

/-- Witness for AStar_optimal: on the one-effector instance the search
accepts at priority 1, the total value 10 minus the optimal reward 9. -/
theorem AStar_optimal_w :
    WFState ex1 ∧ AStar astar_heuristic 3 ex1 = some (.success [(0, 0)] 1 2 1) ∧
      (1 : ℚ) = sumValues ex1 - bestReward ex1 :=
  ⟨by with_unfolding_all decide, by with_unfolding_all decide,
    AStar_optimal ex1 3 [(0, 0)] 1 2 1 (by with_unfolding_all decide)
      (by with_unfolding_all decide)⟩

end JFA

namespace JFA

/-- Search states reachable by the AStar loop from the initial frontier
of s0: the initial state and everything obtained by continuing loop
iterations. -/
inductive Reach (h : JState → ℚ) (s0 : JState) : Sσ → Prop where
  | init : Reach h s0 ⟨[initNode s0], [], 0, 0, 0⟩
  | next {σ σ' : Sσ} : Reach h s0 σ → step h σ = .cont σ' → Reach h s0 σ'

/-- The loop invariant holds at every reachable search state. -/
theorem Reach_inv {h : JState → ℚ} {s0 : JState} {σ : Sσ} (hwf : WFState s0)
    (hterm0 : ∀ s, WFState s → selectablePairs s = [] → h s = 0)
    (hr : Reach h s0 σ) : Inv h s0 σ := by
  induction hr with
  | init => exact Inv_init h s0
  | next hr0 hstep ih => exact Inv_step hwf hterm0 ih hstep

/-- Under the zero heuristic the queued and the corrected priority of a
chain node coincide, so priority plus accumulated path reward is the
initial total value along every chain. -/
theorem chain_ucs_sum {s0 : JState} :
    ∀ n : SNode, NodeChain ucs_heuristic s0 n → n.g + n.pathReward = sumValues s0
  | .root c, hc => by
    obtain ⟨-, hg, -, hr, -⟩ := hc
    show c.g + c.reward = sumValues s0
    rw [hg, hr, add_zero]
  | .child c p, hc => by
    obtain ⟨hp, -, a, -, -, -, hgopt⟩ := hc
    have ih := chain_ucs_sum p hp
    show c.g + (p.pathReward + c.reward) = sumValues s0
    have hcg : c.g = p.g - c.reward := by
      rcases hgopt with h2 | h2
      · rw [h2]
        show p.g - c.reward - 0 = p.g - c.reward
        ring
      · exact h2
    rw [hcg]
    linarith

/-- C7: under the zero heuristic ucs_heuristic, every node held in the
frontier or the closed list at any reachable point of the search
satisfies priority + (sum of rewards on the path from the root to the
node) = sum of all initial target values; and the initial node is the
parentless root with priority sumValues s0, action none, reward 0 and
terminal false. -/
theorem ucs_priority_invariant (s0 : JState) (σ : Sσ) (hwf : WFState s0)
    (hreach : Reach ucs_heuristic s0 σ) :
    (∀ n : SNode, (n ∈ σ.frontier ∨ n ∈ σ.explored) →
      n.g + n.pathReward = sumValues s0) ∧
    initNode s0 = SNode.root ⟨sumValues s0, none, s0, 0, false⟩ := by
  have hI : Inv ucs_heuristic s0 σ := Reach_inv hwf (fun _ _ _ => rfl) hreach
  refine ⟨?_, rfl⟩
  rintro n (hn | hn)
  · exact chain_ucs_sum n (hI.frontChain n hn)
  · exact chain_ucs_sum n (hI.explChain n hn)

/-- Witness for ucs_priority_invariant at the initial search state of a
concrete instance. -/
theorem ucs_priority_invariant_w :
    WFState ex1 ∧
      ((∀ n : SNode, (n ∈ (⟨[initNode ex1], [], 0, 0, 0⟩ : Sσ).frontier ∨
          n ∈ (⟨[initNode ex1], [], 0, 0, 0⟩ : Sσ).explored) →
        n.g + n.pathReward = sumValues ex1) ∧
      initNode ex1 = SNode.root ⟨sumValues ex1, none, ex1, 0, false⟩) :=
  ⟨by with_unfolding_all decide,
    ucs_priority_invariant ex1 ⟨[initNode ex1], [], 0, 0, 0⟩
      (by with_unfolding_all decide) Reach.init⟩

end JFA
